import Mathlib

/-!
Verification of the SpringLift diff/change-classification engine
(`springlift/diff_report.py`).

`DiffReportGenerator` delegates its sequence alignment to Python's
`difflib` standard library with `isjunk=None` (`SequenceMatcher(None, a, b)`
and `difflib.unified_diff`).  The first half of this file is a shallow
embedding of the parts of `difflib` the repository exercises
(`SequenceMatcher.find_longest_match`, `get_matching_blocks`,
`get_opcodes`, `get_grouped_opcodes`, `ratio`, and `unified_diff`), the
second half embeds `diff_report.py` itself.  Texts are modelled as
`List Char`, line sequences as `List (List Char)`, and Python floats as
exact rationals (`ℚ`); `round(x, 2)` is modelled as exact round-half-to-even
at two decimals.
-/

namespace SpringLift

/-! ### difflib.SequenceMatcher with isjunk = None

With `isjunk=None` the junk set `self.bjunk` is always empty, so the two
junk-extension loops at the end of `find_longest_match` are dead code and are
omitted; the autojunk "popular element" purge is kept. -/

/-- One matching block, difflib's `Match(a, b, size)` namedtuple. -/
structure MatchB where
  a : Nat
  b : Nat
  size : Nat
deriving DecidableEq

variable {α : Type} [DecidableEq α]

/-- `__chain_b` before the popularity purge: `b2j[x]` is the ascending list of
positions of `x` in `b` (Python appends positions in `enumerate` order). -/
def occ (b : List α) (x : α) : List Nat :=
  (List.range b.length).filter (fun j => decide (b[j]? = some x))

/-- `self.b2j` after the autojunk purge: with `autojunk=True` and
`len(b) >= 200`, an element with more than `len(b)//100 + 1` occurrences is
"popular" and its key is deleted (`b2j.get` then yields `[]`). -/
def b2j (b : List α) (x : α) : List Nat :=
  let o := occ b x
  if 200 ≤ b.length ∧ b.length / 100 + 1 < o.length then [] else o

/-- The `j` values visited by the inner loop of `find_longest_match` at row
`i`: `b2j.get(a[i], [])` restricted to `blo <= j < bhi`.  Python realises the
restriction with `continue`/`break` over the ascending occurrence list, which
is the same as this filter. -/
def jsFor (a b : List α) (blo bhi i : Nat) : List Nat :=
  match a[i]? with
  | none => []
  | some x => (b2j b x).filter (fun j => decide (blo ≤ j) && decide (j < bhi))

/-- `j2len.get(j-1, 0)`: Python's `j-1` is `-1` when `j = 0`, and `.get`
returns the default `0` there. -/
def prevLen (j2len : Nat → Nat) : Nat → Nat
  | 0 => 0
  | j + 1 => j2len j

/-- One row `i` of the DP loop of `find_longest_match`: builds `newj2len`
from the snapshot `j2len` of the previous row and updates the running best.
`i-k+1` and `j-k+1` are the Python expressions; on every reachable state
`k ≤ i+1` and `k ≤ j+1`, so truncated subtraction agrees with Python. -/
def dpRowStep (j2len : Nat → Nat) (i : Nat) (st : (Nat → Nat) × MatchB) (j : Nat) :
    (Nat → Nat) × MatchB :=
  let k := prevLen j2len j + 1
  let new : Nat → Nat := fun x => if x = j then k else st.1 x
  let best2 := if st.2.size < k then MatchB.mk (i + 1 - k) (j + 1 - k) k else st.2
  (new, best2)

def dpRow (j2len : Nat → Nat) (i : Nat) (js : List Nat) (best : MatchB) :
    (Nat → Nat) × MatchB :=
  js.foldl (dpRowStep j2len i) ((fun _ => 0), best)

/-- The full DP loop of `find_longest_match` (`for i in range(alo, ahi)`),
starting from `besti, bestj, bestsize = alo, blo, 0` and `j2len = {}`. -/
def dpLoop (a b : List α) (alo ahi blo bhi : Nat) : MatchB :=
  ((List.range' alo (ahi - alo)).foldl
    (fun st i => dpRow st.1 i (jsFor a b blo bhi i) st.2)
    (((fun _ => 0) : Nat → Nat), MatchB.mk alo blo 0)).2

/-- `a[i] == b[j]`; the indices are in range whenever Python evaluates the
comparison, and out-of-range indices yield `false` (never reached). -/
def elemEq (a b : List α) (i j : Nat) : Bool :=
  match a[i]?, b[j]? with
  | some x, some y => decide (x = y)
  | _, _ => false

/-- First extension loop of `find_longest_match`:
`while besti > alo and bestj > blo and a[besti-1] == b[bestj-1]` (the
`isbjunk` conjunct is constantly false with `isjunk=None`).  Recursion is
structural on `besti`, which the loop decrements. -/
def extendLeft (a b : List α) (alo blo : Nat) : Nat → Nat → Nat → MatchB
  | 0, bestj, size => MatchB.mk 0 bestj size
  | besti + 1, bestj, size =>
    if alo ≤ besti ∧ blo < bestj ∧ elemEq a b besti (bestj - 1) = true then
      extendLeft a b alo blo besti (bestj - 1) (size + 1)
    else MatchB.mk (besti + 1) bestj size

/-- Second extension loop:
`while besti+bestsize < ahi and bestj+bestsize < bhi and a[..] == b[..]`.
The conjunct `besti + size < ahi` is carried as the structurally decreasing
counter `fuel = ahi - (besti + size)`, which is positive exactly when the
conjunct holds and decreases by one each time `size` is incremented. -/
def extendRightAux (a b : List α) (bhi bi bj : Nat) : Nat → Nat → Nat
  | 0, size => size
  | fuel + 1, size =>
    if bj + size < bhi ∧ elemEq a b (bi + size) (bj + size) = true then
      extendRightAux a b bhi bi bj fuel (size + 1)
    else size

def extendRight (a b : List α) (ahi bhi bi bj size : Nat) : Nat :=
  extendRightAux a b bhi bi bj (ahi - (bi + size)) size

/-- `SequenceMatcher.find_longest_match(alo, ahi, blo, bhi)` with
`isjunk=None`: DP loop, then the two (non-junk) extension loops. -/
def findLongestMatch (a b : List α) (alo ahi blo bhi : Nat) : MatchB :=
  let best0 := dpLoop a b alo ahi blo bhi
  let best1 := extendLeft a b alo blo best0.a best0.b best0.size
  MatchB.mk best1.a best1.b (extendRight a b ahi bhi best1.a best1.b best1.size)

/-- The divide-and-conquer phase of `get_matching_blocks`.  Python keeps an
explicit worklist and sorts the collected blocks afterwards; each subrange is
processed independently, so the sorted result equals this in-order recursion
(left subrange, found block, right subrange).  `fuel` bounds the recursion
depth: every recursive call strictly shrinks `(ahi - alo) + (bhi - blo)`, so
the initial fuel `(ahi - alo) + (bhi - blo) + 1` used below never runs out. -/
def matchingBlocksAux (a b : List α) : Nat → Nat → Nat → Nat → Nat → List MatchB
  | 0, _, _, _, _ => []
  | fuel + 1, alo, ahi, blo, bhi =>
    let m := findLongestMatch a b alo ahi blo bhi
    if m.size = 0 then []
    else
      (if alo < m.a ∧ blo < m.b then matchingBlocksAux a b fuel alo m.a blo m.b else [])
      ++ m ::
      (if m.a + m.size < ahi ∧ m.b + m.size < bhi then
        matchingBlocksAux a b fuel (m.a + m.size) ahi (m.b + m.size) bhi else [])

/-- The adjacency-collapsing pass of `get_matching_blocks` (the
`non_adjacent` loop), started from `i1 = j1 = k1 = 0`. -/
def collapseLoop : Nat → Nat → Nat → List MatchB → List MatchB
  | i1, j1, k1, [] => if k1 ≠ 0 then [MatchB.mk i1 j1 k1] else []
  | i1, j1, k1, m :: rest =>
    if i1 + k1 = m.a ∧ j1 + k1 = m.b then collapseLoop i1 j1 (k1 + m.size) rest
    else
      (if k1 ≠ 0 then [MatchB.mk i1 j1 k1] else []) ++ collapseLoop m.a m.b m.size rest

/-- `SequenceMatcher.get_matching_blocks()`: recursive block search, adjacency
collapse, then the `(len(a), len(b), 0)` sentinel. -/
def getMatchingBlocks (a b : List α) : List MatchB :=
  collapseLoop 0 0 0
      (matchingBlocksAux a b (a.length + b.length + 1) 0 a.length 0 b.length)
    ++ [MatchB.mk a.length b.length 0]

/-- `sum(triple[-1] for triple in self.get_matching_blocks())`. -/
def matchesTotal (a b : List α) : Nat :=
  ((getMatchingBlocks a b).map MatchB.size).sum

/-- `SequenceMatcher.ratio()` = `_calculate_ratio(matches, len(a) + len(b))`:
`2.0 * matches / length` when `length` is nonzero, else `1.0`. -/
def ratioQ (a b : List α) : ℚ :=
  if a.length + b.length ≠ 0 then
    2 * (matchesTotal a b : ℚ) / ((a.length : ℚ) + (b.length : ℚ))
  else 1

/-- difflib's opcode tags (the strings `'equal'`, `'replace'`, `'delete'`,
`'insert'`). -/
inductive Tag where
  | equal
  | replace
  | delete
  | insert
deriving DecidableEq

/-- One opcode `(tag, i1, i2, j1, j2)`. -/
structure Opcode where
  tag : Tag
  i1 : Nat
  i2 : Nat
  j1 : Nat
  j2 : Nat
deriving DecidableEq

/-- The loop body of `get_opcodes`, carrying the cursor `(i, j)` over the
matching-block list (sentinel included). -/
def opcodesLoop : Nat → Nat → List MatchB → List Opcode
  | _, _, [] => []
  | i, j, m :: rest =>
    (if i < m.a ∧ j < m.b then [Opcode.mk Tag.replace i m.a j m.b]
     else if i < m.a then [Opcode.mk Tag.delete i m.a j m.b]
     else if j < m.b then [Opcode.mk Tag.insert i m.a j m.b]
     else [])
    ++ (if m.size ≠ 0 then
          [Opcode.mk Tag.equal m.a (m.a + m.size) m.b (m.b + m.size)] else [])
    ++ opcodesLoop (m.a + m.size) (m.b + m.size) rest

/-- `SequenceMatcher.get_opcodes()`. -/
def getOpcodes (a b : List α) : List Opcode :=
  opcodesLoop 0 0 (getMatchingBlocks a b)

/-! ### difflib.unified_diff -/

/-- `codes[0] = tag, max(i1, i2-n), i2, max(j1, j2-n), j2` when the first
opcode is `'equal'` (`get_grouped_opcodes` leading fixup). -/
def trimHead (n : Nat) : List Opcode → List Opcode
  | [] => []
  | c :: rest =>
    if c.tag = Tag.equal then
      Opcode.mk Tag.equal (max c.i1 (c.i2 - n)) c.i2 (max c.j1 (c.j2 - n)) c.j2 :: rest
    else c :: rest

/-- `codes[-1] = tag, i1, min(i2, i1+n), j1, min(j2, j1+n)` when the last
opcode is `'equal'` (`get_grouped_opcodes` trailing fixup). -/
def trimLast (n : Nat) (codes : List Opcode) : List Opcode :=
  match codes.getLast? with
  | none => []
  | some c =>
    if c.tag = Tag.equal then
      codes.dropLast
        ++ [Opcode.mk Tag.equal c.i1 (min c.i2 (c.i1 + n)) c.j1 (min c.j2 (c.j1 + n))]
    else codes

/-- The grouping loop of `get_grouped_opcodes`: a long `'equal'` opcode
(`i2 - i1 > n + n`) closes the current group with `n` trailing context lines
and opens a new group with `n` leading context lines; the final `group` is
yielded unless it is empty or a single `'equal'` opcode. -/
def groupLoop (n : Nat) : List Opcode → List Opcode → List (List Opcode)
  | group, [] =>
    match group with
    | [] => []
    | [c] => if c.tag = Tag.equal then [] else [[c]]
    | _ => [group]
  | group, c :: rest =>
    if c.tag = Tag.equal ∧ n + n < c.i2 - c.i1 then
      (group ++ [Opcode.mk Tag.equal c.i1 (min c.i2 (c.i1 + n)) c.j1 (min c.j2 (c.j1 + n))])
        :: groupLoop n
            [Opcode.mk Tag.equal (max c.i1 (c.i2 - n)) c.i2 (max c.j1 (c.j2 - n)) c.j2] rest
    else groupLoop n (group ++ [c]) rest

/-- `SequenceMatcher.get_grouped_opcodes(n)`, including the substitution of
`[("equal", 0, 1, 0, 1)]` for an empty opcode list. -/
def getGroupedOpcodes (n : Nat) (a b : List α) : List (List Opcode) :=
  let codes := getOpcodes a b
  let codes := if codes = [] then [Opcode.mk Tag.equal 0 1 0 1] else codes
  groupLoop n [] (trimLast n (trimHead n codes))

/-- Python slice `l[i:j]` for `0 ≤ i ≤ j` (clamped past the end, empty when
`j ≤ i`, exactly as in Python for the nonnegative indices used here). -/
def pySlice (l : List α) (i j : Nat) : List α := (l.drop i).take (j - i)

/-- `difflib._format_range_unified(start, stop)`. -/
def formatRangeUnified (start stop : Nat) : List Char :=
  let beginning := start + 1
  let length := stop - start
  if length = 1 then Nat.toDigits 10 beginning
  else
    let beginning := if length = 0 then beginning - 1 else beginning
    Nat.toDigits 10 beginning ++ ',' :: Nat.toDigits 10 length

/-- The per-opcode line emission of `unified_diff`: `' ' + line` for equal
lines, `'-' + line` for original lines of replace/delete opcodes, `'+' + line`
for modernized lines of replace/insert opcodes. -/
def renderOpcode (a b : List (List Char)) (c : Opcode) : List (List Char) :=
  (if c.tag = Tag.equal then (pySlice a c.i1 c.i2).map (fun line => ' ' :: line) else [])
  ++ (if c.tag = Tag.replace ∨ c.tag = Tag.delete then
        (pySlice a c.i1 c.i2).map (fun line => '-' :: line) else [])
  ++ (if c.tag = Tag.replace ∨ c.tag = Tag.insert then
        (pySlice b c.j1 c.j2).map (fun line => '+' :: line) else [])

/-- One group of `unified_diff` output: the `@@ -r1 +r2 @@` hunk header
(ranges from `group[0]` and `group[-1]`), then the member opcodes' lines. -/
def renderGroup (a b : List (List Char)) (g : List Opcode) : List (List Char) :=
  match g with
  | [] => []
  | first :: _ =>
    let last := g.getLastD first
    ('@' :: '@' :: ' ' :: '-' ::
        (formatRangeUnified first.i1 last.i2
          ++ ' ' :: '+' :: formatRangeUnified first.j1 last.j2 ++ [' ', '@', '@']))
      :: (g.map (renderOpcode a b)).flatten

/-- `difflib.unified_diff(a, b, fromfile, tofile, lineterm='')` as the list
of emitted strings: the two `---`/`+++` header lines are produced before the
first group only, so the output is empty when there are no groups. -/
def unifiedDiff (a b : List (List Char)) (fromfile tofile : List Char) :
    List (List Char) :=
  match getGroupedOpcodes 3 a b with
  | [] => []
  | g :: gs =>
    ('-' :: '-' :: '-' :: ' ' :: fromfile)
      :: ('+' :: '+' :: '+' :: ' ' :: tofile)
      :: (((g :: gs)).map (renderGroup a b)).flatten

/-! ### Python string primitives used by diff_report.py -/

/-- The line-boundary characters of `str.splitlines`. -/
def isLineBreak (c : Char) : Bool :=
  decide (c ∈ ['\n', '\r', '\x0b', '\x0c', '\x1c', '\x1d', '\x1e', '\x85', ' ', ' '])

/-- `str.splitlines(keepends=True)`: each line keeps its terminator, `"\r\n"`
counts as a single boundary, and a final segment without terminator is kept. -/
def splitlines : List Char → List (List Char)
  | [] => []
  | '\r' :: '\n' :: rest2 => ['\r', '\n'] :: splitlines rest2
  | c :: rest =>
    if isLineBreak c then [c] :: splitlines rest
    else
      match splitlines rest with
      | [] => [[c]]
      | l :: ls => (c :: l) :: ls

/-- Characters stripped by `str.strip()` (`str.isspace`); the ASCII and
Latin-1 whitespace characters.  The remaining Unicode space separators are
omitted: no claim depends on them, and every theorem below that involves
stripping holds for any such character class. -/
def isPySpace (c : Char) : Bool :=
  decide (c ∈ [' ', '\t', '\n', '\r', '\x0b', '\x0c', '\x1c', '\x1d', '\x1e', '\x1f', '\x85', '\xa0'])

/-- `str.strip()` with the whitespace class above. -/
def pyStrip (s : List Char) : List Char :=
  ((s.dropWhile isPySpace).reverse.dropWhile isPySpace).reverse

/-- `small.startswith(pat)` for lists of characters (pattern first). -/
def startsWithL : List Char → List Char → Bool
  | [], _ => true
  | _ :: _, [] => false
  | p :: ps, c :: cs => decide (p = c) && startsWithL ps cs

/-- Python's substring test `pat in s`. -/
def containsSub (s pat : List Char) : Bool :=
  match s with
  | [] => startsWithL pat []
  | _ :: rest => startsWithL pat s || containsSub rest pat

/-! ### diff_report.py: DiffReportGenerator -/

/-- The change categories returned by `_categorize_change` (the strings
`"namespace_migration"`, ..., `"code_updated"`). -/
inductive ChangeType where
  | namespace_migration
  | import_added
  | import_removed
  | comment_added
  | deprecated_removed
  | code_updated
deriving DecidableEq

def kwJavax : List Char := "javax.".toList
def kwJakarta : List Char := "jakarta.".toList
def kwImport : List Char := "import".toList
def kwSlashes : List Char := "//".toList
def kwDeprecated : List Char := "Deprecated".toList
def kwAtDeprecated : List Char := "@Deprecated".toList

/-- `DiffReportGenerator._categorize_change(original_code, modernized_code)`. -/
def categorizeChange (original_code modernized_code : List Char) : ChangeType :=
  if containsSub original_code kwJavax && containsSub modernized_code kwJakarta then
    ChangeType.namespace_migration
  else if containsSub modernized_code kwImport && ! containsSub original_code kwImport then
    ChangeType.import_added
  else if containsSub original_code kwImport && ! containsSub modernized_code kwImport then
    ChangeType.import_removed
  else if containsSub modernized_code kwSlashes && ! containsSub original_code kwSlashes then
    ChangeType.comment_added
  else if containsSub original_code kwDeprecated || containsSub original_code kwAtDeprecated then
    ChangeType.deprecated_removed
  else ChangeType.code_updated

/-- One entry of the `changed_sections` list built by
`_extract_changed_sections`. -/
structure ChangedSection where
  type : Tag
  original_start : Nat
  original_end : Nat
  modernized_start : Nat
  modernized_end : Nat
  original_code : List Char
  modernized_code : List Char
  change_type : ChangeType
deriving DecidableEq

/-- `DiffReportGenerator._extract_changed_sections(original_lines,
modernized_lines)`: one section per non-equal opcode, dropped when both
stripped slices are empty (Python's truthiness filter
`if section["original_code"] or section["modernized_code"]`). -/
def extractChangedSections (original_lines modernized_lines : List (List Char)) :
    List ChangedSection :=
  (getOpcodes original_lines modernized_lines).filterMap (fun c =>
    if c.tag = Tag.equal then none
    else
      let oc := (pySlice original_lines c.i1 c.i2).flatten
      let mc := (pySlice modernized_lines c.j1 c.j2).flatten
      let s : ChangedSection :=
        { type := c.tag
          original_start := c.i1 + 1
          original_end := c.i2
          modernized_start := c.j1 + 1
          modernized_end := c.j2
          original_code := pyStrip oc
          modernized_code := pyStrip mc
          change_type := categorizeChange oc mc }
      if s.original_code ≠ [] ∨ s.modernized_code ≠ [] then some s else none)

/-- Round half to even at integer precision (the tie-breaking rule of
Python's `round`). -/
def roundHalfEven (q : ℚ) : ℤ :=
  let f := ⌊q⌋
  if q - f < 1 / 2 then f
  else if 1 / 2 < q - f then f + 1
  else if Even f then f else f + 1

/-- `round(x, 2)` on the rational model of Python floats. -/
def round2 (q : ℚ) : ℚ := (roundHalfEven (q * 100) : ℚ) / 100

/-- `DiffReportGenerator._calculate_diff_ratio(original, modernized)` =
`round(SequenceMatcher(None, original, modernized).ratio() * 100, 2)`:
a character-level comparison of the two full texts. -/
def calculateDiffRatio (original modernized : List Char) : ℚ :=
  round2 (ratioQ original modernized * 100)

/-- The dict returned by `generate_file_diff` (all keys always present). -/
structure FileDiffReport where
  filename : List Char
  original_lines : Nat
  modernized_lines : Nat
  added_lines : Nat
  removed_lines : Nat
  changed_lines : Nat
  diff_ratio : ℚ
  unified_diff : List Char
  changed_sections : List ChangedSection
deriving DecidableEq

/-- `line.startswith('+') and not line.startswith('+++')`. -/
def countsAsAdded (l : List Char) : Bool :=
  startsWithL ['+'] l && ! startsWithL ['+', '+', '+'] l

/-- `line.startswith('-') and not line.startswith('---')`. -/
def countsAsRemoved (l : List Char) : Bool :=
  startsWithL ['-'] l && ! startsWithL ['-', '-', '-'] l

/-- `DiffReportGenerator.generate_file_diff(original_content,
modernized_content, filename)`. -/
def generateFileDiff (original_content modernized_content filename : List Char) :
    FileDiffReport :=
  let original_lines := splitlines original_content
  let modernized_lines := splitlines modernized_content
  let diff := unifiedDiff original_lines modernized_lines
    ("original/".toList ++ filename) ("modernized/".toList ++ filename)
  let added_lines := diff.countP countsAsAdded
  let removed_lines := diff.countP countsAsRemoved
  { filename := filename
    original_lines := original_lines.length
    modernized_lines := modernized_lines.length
    added_lines := added_lines
    removed_lines := removed_lines
    changed_lines := added_lines + removed_lines
    diff_ratio := calculateDiffRatio original_content modernized_content
    unified_diff := diff.flatten
    changed_sections := extractChangedSections original_lines modernized_lines }

/-! ### diff_report.py: generate_project_diff_report

The project summarizer receives a list of dicts and reads every key through
`d.get(key, default)`, so a record may lack any of the keys (this is how a
failed per-file diff, recorded upstream as a failure marker without diff
statistics, flows through the aggregation).  A record is therefore modelled
with one `Option` per key read by the function. -/

structure FileDiffRec where
  filename : Option (List Char)
  original_lines : Option Nat
  modernized_lines : Option Nat
  added_lines : Option Nat
  removed_lines : Option Nat
  changed_lines : Option Nat
  diff_ratio : Option ℚ
  changed_sections : Option (List ChangedSection)
deriving DecidableEq

/-- View a full per-file report as a record (every key present). -/
def FileDiffReport.toRec (r : FileDiffReport) : FileDiffRec :=
  { filename := some r.filename
    original_lines := some r.original_lines
    modernized_lines := some r.modernized_lines
    added_lines := some r.added_lines
    removed_lines := some r.removed_lines
    changed_lines := some r.changed_lines
    diff_ratio := some r.diff_ratio
    changed_sections := some r.changed_sections }

/-- A failure marker record: none of the diff-statistics keys is present. -/
def failureRec : FileDiffRec :=
  { filename := none
    original_lines := none
    modernized_lines := none
    added_lines := none
    removed_lines := none
    changed_lines := none
    diff_ratio := none
    changed_sections := none }

/-- One entry of `most_modified_files`. -/
structure MostModifiedEntry where
  filename : Option (List Char)
  lines_changed : Nat
  added : Nat
  removed : Nat
deriving DecidableEq

/-- The `summary` sub-dict of the project report. -/
structure ProjectSummary where
  total_files_analyzed : Nat
  total_files_modified : Nat
  total_original_lines : Nat
  total_modernized_lines : Nat
  total_lines_added : Nat
  total_lines_removed : Nat
  total_lines_changed : Nat
  average_diff_ratio : ℚ
deriving DecidableEq

/-- The dict returned by `generate_project_diff_report`; the
`change_categories` histogram is modelled as its counting function. -/
structure ProjectDiffReport where
  summary : ProjectSummary
  change_categories : ChangeType → Nat
  most_modified_files : List MostModifiedEntry
  files : List FileDiffRec

/-- The `change_categories` accumulation loop: every section of every file
bumps its category's count. -/
def changeCategoriesOf (file_diffs : List FileDiffRec) : ChangeType → Nat :=
  file_diffs.foldl
    (fun acc d =>
      (d.changed_sections.getD []).foldl
        (fun acc2 s => fun t => if t = s.change_type then acc2 t + 1 else acc2 t) acc)
    (fun _ => 0)

/-- Insertion step of a stable descending sort by key: the element moves past
exactly those already-sorted elements with a strictly smaller key, so equal
keys keep their original relative order. -/
def insertDesc (key : FileDiffRec → Nat) (x : FileDiffRec) :
    List FileDiffRec → List FileDiffRec
  | [] => [x]
  | y :: ys => if key y ≤ key x then x :: y :: ys else y :: insertDesc key x ys

/-- `sorted(file_diffs, key=..., reverse=True)`: Python's sort is stable and
`reverse=True` keeps equal elements in original order; this insertion sort
realises exactly that specification. -/
def sortDescStable (key : FileDiffRec → Nat) : List FileDiffRec → List FileDiffRec
  | [] => []
  | x :: xs => insertDesc key x (sortDescStable key xs)

/-- `most_modified = sorted(file_diffs, key=lambda x: x.get("changed_lines", 0),
reverse=True)[:5]`, then the projection to the four reported keys. -/
def mostModifiedList (file_diffs : List FileDiffRec) : List MostModifiedEntry :=
  ((sortDescStable (fun d => d.changed_lines.getD 0) file_diffs).take 5).map (fun f =>
    { filename := f.filename
      lines_changed := f.changed_lines.getD 0
      added := f.added_lines.getD 0
      removed := f.removed_lines.getD 0 })

/-- `DiffReportGenerator.generate_project_diff_report(file_diffs)`. -/
def generateProjectDiffReport (file_diffs : List FileDiffRec) : ProjectDiffReport :=
  let total_files := file_diffs.length
  let total_added_lines := (file_diffs.map (fun d => d.added_lines.getD 0)).sum
  let total_removed_lines := (file_diffs.map (fun d => d.removed_lines.getD 0)).sum
  { summary :=
      { total_files_analyzed := total_files
        total_files_modified := file_diffs.countP (fun d => decide (0 < d.changed_lines.getD 0))
        total_original_lines := (file_diffs.map (fun d => d.original_lines.getD 0)).sum
        total_modernized_lines := (file_diffs.map (fun d => d.modernized_lines.getD 0)).sum
        total_lines_added := total_added_lines
        total_lines_removed := total_removed_lines
        total_lines_changed := total_added_lines + total_removed_lines
        average_diff_ratio :=
          round2 ((file_diffs.map (fun d => d.diff_ratio.getD 100)).sum
            / ((max 1 total_files : Nat) : ℚ)) }
    change_categories := changeCategoriesOf file_diffs
    most_modified_files := mostModifiedList file_diffs
    files := file_diffs }

/-! ### Auxiliary and spec-side definitions used by the theorems -/

/-- Spec-side formulation (section 4.1 / design note): the classification as
an explicit ordered list of `(predicate, category)` pairs, in the precedence
order namespace_migration, import_added, import_removed, comment_added,
deprecated_removed, with code_updated as the fallback.  Used only to compare
against the code's `_categorize_change` if-chain. -/
def specRuleTable : List ((List Char → List Char → Bool) × ChangeType) :=
  [ (fun o m => containsSub o kwJavax && containsSub m kwJakarta,
      ChangeType.namespace_migration)
  , (fun o m => containsSub m kwImport && ! containsSub o kwImport,
      ChangeType.import_added)
  , (fun o m => containsSub o kwImport && ! containsSub m kwImport,
      ChangeType.import_removed)
  , (fun o m => containsSub m kwSlashes && ! containsSub o kwSlashes,
      ChangeType.comment_added)
  , (fun o _ => containsSub o kwDeprecated || containsSub o kwAtDeprecated,
      ChangeType.deprecated_removed) ]

/-- Spec-side evaluation: first matching rule wins, `code_updated` as the
fallback default. -/
def specFirstMatch : List ((List Char → List Char → Bool) × ChangeType) →
    List Char → List Char → ChangeType
  | [], _, _ => ChangeType.code_updated
  | (p, t) :: rest, o, m => if p o m then t else specFirstMatch rest o m

def scenarioOriginal : List Char :=
  ("import javax.servlet.Filter;\npublic class A {}\n").toList

def scenarioModern : List Char :=
  ("import jakarta.servlet.Filter;\npublic class A {}\n").toList
/-- A concrete successful per-file record used in the C3 counterexample. -/
def okRec50 : FileDiffRec :=
  { filename := some ("Ok.java").toList
    original_lines := some 10
    modernized_lines := some 10
    added_lines := some 2
    removed_lines := some 2
    changed_lines := some 4
    diff_ratio := some 50
    changed_sections := some [] }
/-- The matching blocks listed in order: monotone, non-overlapping, nonempty,
inside the box ending at `(ahi, bhi)`, starting no earlier than `(alo, blo)`. -/
def ChainedUpto (ahi bhi : Nat) : Nat → Nat → List MatchB → Prop
  | alo, blo, [] => alo ≤ ahi ∧ blo ≤ bhi
  | alo, blo, m :: rest =>
    alo ≤ m.a ∧ blo ≤ m.b ∧ 0 < m.size ∧
      ChainedUpto ahi bhi (m.a + m.size) (m.b + m.size) rest
/-- The opcode list as a contiguous chain: each opcode starts where the
previous one ended, ranges are well-formed, and the chain ends exactly at
`(la, lb)`. -/
def OpChain (la lb : Nat) : Nat → Nat → List Opcode → Prop
  | i, j, [] => i = la ∧ j = lb
  | i, j, c :: rest =>
    c.i1 = i ∧ c.j1 = j ∧ c.i1 ≤ c.i2 ∧ c.j1 ≤ c.j2 ∧ OpChain la lb c.i2 c.j2 rest
/-- The single section produced by the javax→jakarta scenario, used to
instantiate `C10_section_ranges` at a concrete input. -/
def scenarioSection : ChangedSection :=
  { type := Tag.replace
    original_start := 1
    original_end := 1
    modernized_start := 1
    modernized_end := 1
    original_code := ("import javax.servlet.Filter;").toList
    modernized_code := ("import jakarta.servlet.Filter;").toList
    change_type := ChangeType.namespace_migration }
/-- Spec-side count: the number of lines present only in the modernized text,
summed across insert/replace opcodes. -/
def addedSpecCount (a b : List (List Char)) : Nat :=
  (((getOpcodes a b).filter
      (fun c => decide (c.tag = Tag.insert ∨ c.tag = Tag.replace))).map
    (fun c => c.j2 - c.j1)).sum

/-- Spec-side count: the number of lines present only in the original text,
summed across delete/replace opcodes. -/
def removedSpecCount (a b : List (List Char)) : Nat :=
  (((getOpcodes a b).filter
      (fun c => decide (c.tag = Tag.delete ∨ c.tag = Tag.replace))).map
    (fun c => c.i2 - c.i1)).sum
/-- The value `newj2len[j]` computed by row `i` of the DP loop of
`find_longest_match` on the identity comparison over the full box. -/
def chainC (a : List α) : Nat → Nat → Nat
  | 0, j => if j ∈ jsFor a a 0 a.length 0 then 1 else 0
  | i + 1, j => if j ∈ jsFor a a 0 a.length (i + 1) then prevLen (chainC a i) j + 1 else 0

/-- The snapshot `j2len` seen by row `i`: the previous row's `chainC`, or the
empty dict at row `0`. -/
def chainPre (a : List α) : Nat → Nat → Nat
  | 0 => fun _ => 0
  | i + 1 => chainC a i

/-! ## Theorems -/

/-! ### C9: splitlines round-trip -/

theorem splitlines_cons (c : Char) (rest : List Char)
    (h1 : ∀ rest2, c = '\r' → rest = '\n' :: rest2 → False) :
    splitlines (c :: rest) =
      if isLineBreak c then [c] :: splitlines rest
      else match splitlines rest with
        | [] => [[c]]
        | l :: ls => (c :: l) :: ls := by
  rw [splitlines.eq_def]
  split
  · simp_all
  · rename_i rest2 heq
    exfalso
    injection heq with hc hr
    exact h1 rest2 hc hr
  · rename_i c2 rest2 hne heq
    injection heq with hc hr
    subst hc
    subst hr
    rfl

/-- C9: For every finite text `s`, joining the line sequence produced by the
engine's split (line terminators preserved, `str.splitlines(keepends=True)`)
reproduces `s` exactly: `join(split(s)) == s`. -/
theorem C9_splitlines_roundtrip (s : List Char) : (splitlines s).flatten = s := by
  induction s using splitlines.induct with
  | case1 => simp [splitlines]
  | case2 rest2 ih => simp [splitlines, ih]
  | case3 c rest h1 h2 ih =>
    rw [splitlines_cons c rest h1, if_pos h2]
    simp [ih]
  | case4 c rest h1 h2 hs ih =>
    rw [splitlines_cons c rest h1, if_neg h2, hs]
    rw [hs] at ih
    simp at ih
    simp [ih]
  | case5 c rest h1 h2 l ls hs ih =>
    rw [splitlines_cons c rest h1, if_neg h2, hs]
    rw [hs] at ih
    simpa using ih

/-! ### C6: one category per section, ordered first-match precedence -/

/-- C6: every changed section gets exactly one category and
`_categorize_change` is the ordered first-match evaluation of the precedence
list (namespace_migration, import_added, import_removed, comment_added,
deprecated_removed, then code_updated as fallback); on the javax→jakarta
one-line scenario, `compare` yields exactly one section, categorised
namespace_migration, with `changed_lines == 2`. -/
theorem C6_category_precedence :
    (∀ o m, categorizeChange o m = specFirstMatch specRuleTable o m) ∧
    ((generateFileDiff scenarioOriginal scenarioModern ("A.java").toList).changed_sections.map
        ChangedSection.change_type = [ChangeType.namespace_migration] ∧
      (generateFileDiff scenarioOriginal scenarioModern ("A.java").toList).changed_lines = 2) :=
  ⟨fun _ _ => rfl, by decide, by decide⟩

/-! ### C1: average_diff_ratio -/

theorem filterMap_ratio_eq_map (rs : List FileDiffRec)
    (h : ∀ r ∈ rs, (FileDiffRec.diff_ratio r).isSome) :
    rs.filterMap FileDiffRec.diff_ratio = rs.map (fun r => r.diff_ratio.getD 100) := by
  induction rs with
  | nil => rfl
  | cons r rest ih =>
    have hr := h r (by simp)
    obtain ⟨v, hv⟩ := Option.isSome_iff_exists.mp hr
    simp only [List.filterMap_cons, List.map_cons, hv, Option.getD_some]
    exact congrArg (v :: ·) (ih (fun x hx => h x (by simp [hx])))

/-- C1 counterexample: on the empty report list the code returns
`average_diff_ratio = 0`, not the claimed 100 (`sum([]) = 0` divided by
`max(1, 0) = 1`; the 100 in the source is only the per-record
`d.get("diff_ratio", 100)` default). -/
theorem C1_empty_average_counterexample :
    (generateProjectDiffReport []).summary.average_diff_ratio = 0 ∧
      (generateProjectDiffReport []).summary.average_diff_ratio ≠ 100 := by
  constructor
  · show round2 ((0 : ℚ) / ((max 1 0 : Nat) : ℚ)) = 0
    norm_num [round2, roundHalfEven]
  · intro h
    rw [show (generateProjectDiffReport []).summary.average_diff_ratio
        = round2 ((0 : ℚ) / ((max 1 0 : Nat) : ℚ)) from rfl] at h
    norm_num [round2, roundHalfEven] at h

/-- C1 (amended): for a non-empty report list whose records all carry a
`diff_ratio`, `average_diff_ratio` is the 2-decimal-rounded arithmetic mean
of those values; for the empty report list it is 0 (not 100). -/
theorem C1_average_diff_ratio (rs : List FileDiffRec) (hne : rs ≠ [])
    (hall : ∀ r ∈ rs, (FileDiffRec.diff_ratio r).isSome) :
    (generateProjectDiffReport rs).summary.average_diff_ratio =
      round2 ((rs.filterMap FileDiffRec.diff_ratio).sum
        / ((rs.filterMap FileDiffRec.diff_ratio).length : ℚ)) := by
  have hlen : rs.length ≠ 0 := fun h => hne (List.length_eq_zero.mp h)
  have hmax : max 1 rs.length = rs.length :=
    Nat.max_eq_right (Nat.one_le_iff_ne_zero.mpr hlen)
  show round2 ((rs.map (fun r => r.diff_ratio.getD 100)).sum
      / ((max 1 rs.length : Nat) : ℚ)) = _
  rw [filterMap_ratio_eq_map rs hall, hmax, List.length_map]

theorem C1_average_diff_ratio_witness :
    ∃ rs : List FileDiffRec, rs ≠ [] ∧ (∀ r ∈ rs, (FileDiffRec.diff_ratio r).isSome) ∧
      (generateProjectDiffReport rs).summary.average_diff_ratio =
        round2 ((rs.filterMap FileDiffRec.diff_ratio).sum
          / ((rs.filterMap FileDiffRec.diff_ratio).length : ℚ)) := by
  refine ⟨[{ failureRec with diff_ratio := some 50 }], by decide, ?_, ?_⟩
  · intro r hr
    simp only [List.mem_singleton] at hr
    subst hr
    rfl
  · exact C1_average_diff_ratio _ (by decide) (by intro r hr; simp only [List.mem_singleton] at hr; subst hr; rfl)

/-! ### C3: partial-failure aggregation -/

/-- C3 counterexample: summarizing one failure record (no diff statistics)
together with one successful record of `diff_ratio = 50` yields
`average_diff_ratio = 75`: the faulty file is *not* excluded from the
average — it enters the mean with the per-record default 100 and inflates the
denominator.  Exclusion, as claimed, would give 50. -/
theorem C3_failure_average_counterexample :
    (generateProjectDiffReport [failureRec, okRec50]).summary.average_diff_ratio = 75 ∧
      (generateProjectDiffReport [failureRec, okRec50]).summary.average_diff_ratio ≠ 50 := by
  constructor
  · show round2 (((100 : ℚ) + (50 + 0)) / ((max 1 2 : Nat) : ℚ)) = 75
    norm_num [round2, roundHalfEven]
  · intro h
    rw [show (generateProjectDiffReport [failureRec, okRec50]).summary.average_diff_ratio
        = round2 (((100 : ℚ) + (50 + 0)) / ((max 1 2 : Nat) : ℚ)) from rfl] at h
    norm_num [round2, roundHalfEven] at h

/-- C3 (amended): appending a failure record (a record carrying none of the
diff-statistics keys) to any report list leaves every line total, the
modified-file count and the category histogram unchanged, and the summary is
still produced with `files` covering all submitted records — but the faulty
file is NOT excluded from `average_diff_ratio`: it is counted in
`total_files_analyzed` and enters the average with the default value 100. -/
theorem C3_partial_failure (rs : List FileDiffRec) :
    (generateProjectDiffReport (rs ++ [failureRec])).summary.total_lines_added
        = (generateProjectDiffReport rs).summary.total_lines_added ∧
    (generateProjectDiffReport (rs ++ [failureRec])).summary.total_lines_removed
        = (generateProjectDiffReport rs).summary.total_lines_removed ∧
    (generateProjectDiffReport (rs ++ [failureRec])).summary.total_lines_changed
        = (generateProjectDiffReport rs).summary.total_lines_changed ∧
    (generateProjectDiffReport (rs ++ [failureRec])).summary.total_original_lines
        = (generateProjectDiffReport rs).summary.total_original_lines ∧
    (generateProjectDiffReport (rs ++ [failureRec])).summary.total_modernized_lines
        = (generateProjectDiffReport rs).summary.total_modernized_lines ∧
    (generateProjectDiffReport (rs ++ [failureRec])).summary.total_files_modified
        = (generateProjectDiffReport rs).summary.total_files_modified ∧
    (generateProjectDiffReport (rs ++ [failureRec])).change_categories
        = (generateProjectDiffReport rs).change_categories ∧
    (generateProjectDiffReport (rs ++ [failureRec])).files = rs ++ [failureRec] ∧
    (generateProjectDiffReport (rs ++ [failureRec])).summary.total_files_analyzed
        = rs.length + 1 ∧
    (generateProjectDiffReport (rs ++ [failureRec])).summary.average_diff_ratio
        = round2 (((rs.map (fun d => d.diff_ratio.getD 100)).sum + 100)
            / ((rs.length + 1 : Nat) : ℚ)) := by
  refine ⟨?_, ?_, ?_, ?_, ?_, ?_, ?_, rfl, ?_, ?_⟩
  · show ((rs ++ [failureRec]).map (fun d => d.added_lines.getD 0)).sum = _
    simp [failureRec]
    rfl
  · show ((rs ++ [failureRec]).map (fun d => d.removed_lines.getD 0)).sum = _
    simp [failureRec]
    rfl
  · show ((rs ++ [failureRec]).map (fun d => d.added_lines.getD 0)).sum
        + ((rs ++ [failureRec]).map (fun d => d.removed_lines.getD 0)).sum = _
    simp [failureRec]
    rfl
  · show ((rs ++ [failureRec]).map (fun d => d.original_lines.getD 0)).sum = _
    simp [failureRec]
    rfl
  · show ((rs ++ [failureRec]).map (fun d => d.modernized_lines.getD 0)).sum = _
    simp [failureRec]
    rfl
  · show (rs ++ [failureRec]).countP (fun d => decide (0 < d.changed_lines.getD 0)) = _
    simp [List.countP_append, failureRec]
    rfl
  · show changeCategoriesOf (rs ++ [failureRec]) = changeCategoriesOf rs
    unfold changeCategoriesOf
    rw [List.foldl_append]
    rfl
  · show (rs ++ [failureRec]).length = rs.length + 1
    simp
  · show round2 (((rs ++ [failureRec]).map (fun d => d.diff_ratio.getD 100)).sum
        / ((max 1 (rs ++ [failureRec]).length : Nat) : ℚ)) = _
    have : max 1 (rs.length + 1) = rs.length + 1 := Nat.max_eq_right (by omega)
    simp [failureRec, this]

/-! ### C7: most_modified_files -/

theorem insertDesc_perm (key : FileDiffRec → Nat) (x : FileDiffRec) (l : List FileDiffRec) :
    List.Perm (insertDesc key x l) (x :: l) := by
  induction l with
  | nil => rfl
  | cons y ys ih =>
    by_cases h : key y ≤ key x
    · simp [insertDesc, h]
    · simp only [insertDesc, if_neg h]
      exact (ih.cons y).trans (List.Perm.swap x y ys)

theorem sortDescStable_perm (key : FileDiffRec → Nat) (rs : List FileDiffRec) :
    List.Perm (sortDescStable key rs) rs := by
  induction rs with
  | nil => rfl
  | cons r rest ih => exact (insertDesc_perm key r _).trans (ih.cons r)

theorem mem_insertDesc (key : FileDiffRec → Nat) (x z : FileDiffRec) (l : List FileDiffRec) :
    z ∈ insertDesc key x l ↔ z = x ∨ z ∈ l :=
  ⟨fun h => List.mem_cons.mp ((insertDesc_perm key x l).mem_iff.mp h),
   fun h => (insertDesc_perm key x l).mem_iff.mpr (List.mem_cons.mpr h)⟩

theorem pairwise_insertDesc (key : FileDiffRec → Nat) (x : FileDiffRec)
    (l : List FileDiffRec) (h : l.Pairwise (fun u v => key v ≤ key u)) :
    (insertDesc key x l).Pairwise (fun u v => key v ≤ key u) := by
  induction l with
  | nil => simp [insertDesc]
  | cons y ys ih =>
    rcases List.pairwise_cons.mp h with ⟨hy, hys⟩
    by_cases hk : key y ≤ key x
    · simp only [insertDesc, if_pos hk]
      refine List.pairwise_cons.mpr ⟨?_, h⟩
      intro z hz
      rcases List.mem_cons.mp hz with rfl | hz
      · exact hk
      · exact le_trans (hy z hz) hk
    · simp only [insertDesc, if_neg hk]
      refine List.pairwise_cons.mpr ⟨?_, ih hys⟩
      intro z hz
      rcases (mem_insertDesc key x z ys).mp hz with rfl | hz
      · exact le_of_lt (lt_of_not_le hk)
      · exact hy z hz

theorem sortDescStable_pairwise (key : FileDiffRec → Nat) (rs : List FileDiffRec) :
    (sortDescStable key rs).Pairwise (fun u v => key v ≤ key u) := by
  induction rs with
  | nil => simp [sortDescStable]
  | cons r rest ih => exact pairwise_insertDesc key r _ ih

theorem filter_insertDesc (key : FileDiffRec → Nat) (x : FileDiffRec)
    (l : List FileDiffRec) (k : Nat) :
    (insertDesc key x l).filter (fun z => decide (key z = k)) =
      if key x = k then x :: l.filter (fun z => decide (key z = k))
      else l.filter (fun z => decide (key z = k)) := by
  induction l with
  | nil => by_cases h : key x = k <;> simp [insertDesc, h]
  | cons y ys ih =>
    by_cases hk : key y ≤ key x
    · simp only [insertDesc, if_pos hk, List.filter_cons]
      by_cases hx : key x = k <;> simp [hx]
    · simp only [insertDesc, if_neg hk, List.filter_cons]
      by_cases hy : key y = k
      · have hx : ¬ key x = k := fun hx => hk (le_of_eq (hy.trans hx.symm))
        simp [hy, ih, hx]
      · by_cases hx : key x = k <;> simp [hy, ih, hx]

theorem sortDescStable_filter (key : FileDiffRec → Nat) (rs : List FileDiffRec) (k : Nat) :
    (sortDescStable key rs).filter (fun z => decide (key z = k)) =
      rs.filter (fun z => decide (key z = k)) := by
  induction rs with
  | nil => rfl
  | cons r rest ih =>
    show (insertDesc key r _).filter _ = _
    rw [filter_insertDesc, List.filter_cons]
    by_cases h : key r = k <;> simp [h, ih]

/-- C7: `most_modified_files` is the 5-element prefix of the stable
descending sort of the submitted reports by `changed_lines` (`.get` default
0): the sorted list is a permutation of the input, its keys are descending,
and records with equal keys keep their original submission order; on three
reports with `changed_lines` 5, 20, 1 the resulting order is 20, 5, 1. -/
theorem C7_most_modified_files (rs : List FileDiffRec) :
    ((generateProjectDiffReport rs).most_modified_files =
        ((sortDescStable (fun d => d.changed_lines.getD 0) rs).take 5).map (fun f =>
          { filename := f.filename
            lines_changed := f.changed_lines.getD 0
            added := f.added_lines.getD 0
            removed := f.removed_lines.getD 0 }) ∧
      List.Perm (sortDescStable (fun d => d.changed_lines.getD 0) rs) rs ∧
      (sortDescStable (fun d => d.changed_lines.getD 0) rs).Pairwise
        (fun u v => v.changed_lines.getD 0 ≤ u.changed_lines.getD 0) ∧
      (∀ k, (sortDescStable (fun d => d.changed_lines.getD 0) rs).filter
          (fun z => decide (z.changed_lines.getD 0 = k)) =
        rs.filter (fun z => decide (z.changed_lines.getD 0 = k)))) ∧
    (generateProjectDiffReport
        [{ failureRec with changed_lines := some 5 },
         { failureRec with changed_lines := some 20 },
         { failureRec with changed_lines := some 1 }]).most_modified_files.map
      MostModifiedEntry.lines_changed = [20, 5, 1] :=
  ⟨⟨rfl, sortDescStable_perm _ rs, sortDescStable_pairwise _ rs,
    fun k => sortDescStable_filter _ rs k⟩, by decide⟩

/-! ### Alignment invariants: bounds of find_longest_match -/

theorem foldl_inv {β σ : Type} (f : σ → β → σ) (P : σ → Prop) :
    ∀ (l : List β) (s : σ), P s → (∀ s' b, b ∈ l → P s' → P (f s' b)) → P (l.foldl f s) := by
  intro l
  induction l with
  | nil => intro s h _; exact h
  | cons x xs ih =>
    intro s h hstep
    exact ih (f s x) (hstep s x (by simp) h)
      (fun s' b hb => hstep s' b (by simp [hb]))

theorem mem_jsFor {a b : List α} {blo bhi i j : Nat} (h : j ∈ jsFor a b blo bhi i) :
    blo ≤ j ∧ j < bhi := by
  unfold jsFor at h
  rcases ha : a[i]? with _ | x
  · rw [ha] at h; cases h
  · rw [ha] at h
    have := List.of_mem_filter h
    simp only [Bool.and_eq_true, decide_eq_true_eq] at this
    exact this

/-- One inner-loop step preserves the DP invariants: every `newj2len` entry
is bounded by the row/column offsets, and the running best either is still
the initial `(alo, blo, 0)` or describes a real in-range match. -/
theorem dpFold_inv {alo ahi blo bhi : Nat} (i : Nat)
    (hi1 : alo ≤ i) (hi2 : i < ahi) (j2len : Nat → Nat)
    (hq : ∀ j, j2len j ≤ i - alo ∧ (j2len j ≠ 0 → blo ≤ j ∧ j2len j ≤ j + 1 - blo)) :
    ∀ (js : List Nat), (∀ j ∈ js, blo ≤ j ∧ j < bhi) →
    ∀ (st : (Nat → Nat) × MatchB),
      (∀ x, st.1 x ≤ (i + 1) - alo ∧ (st.1 x ≠ 0 → blo ≤ x ∧ st.1 x ≤ x + 1 - blo)) →
      (st.2 = MatchB.mk alo blo 0 ∨
        (alo ≤ st.2.a ∧ blo ≤ st.2.b ∧ st.2.a + st.2.size ≤ ahi ∧
          st.2.b + st.2.size ≤ bhi ∧ 0 < st.2.size)) →
      ((∀ x, (js.foldl (dpRowStep j2len i) st).1 x ≤ (i + 1) - alo ∧
          ((js.foldl (dpRowStep j2len i) st).1 x ≠ 0 →
            blo ≤ x ∧ (js.foldl (dpRowStep j2len i) st).1 x ≤ x + 1 - blo)) ∧
        ((js.foldl (dpRowStep j2len i) st).2 = MatchB.mk alo blo 0 ∨
          (alo ≤ (js.foldl (dpRowStep j2len i) st).2.a ∧
            blo ≤ (js.foldl (dpRowStep j2len i) st).2.b ∧
            (js.foldl (dpRowStep j2len i) st).2.a
              + (js.foldl (dpRowStep j2len i) st).2.size ≤ ahi ∧
            (js.foldl (dpRowStep j2len i) st).2.b
              + (js.foldl (dpRowStep j2len i) st).2.size ≤ bhi ∧
            0 < (js.foldl (dpRowStep j2len i) st).2.size))) := by
  intro js
  induction js with
  | nil => intro _ st hf hm; exact ⟨hf, hm⟩
  | cons j js' ih =>
    intro hmem st hf hm
    rw [List.foldl_cons]
    obtain ⟨hjlo, hjhi⟩ := hmem j (by simp)
    have hk1 : prevLen j2len j + 1 ≤ (i + 1) - alo := by
      have : prevLen j2len j ≤ i - alo := by
        cases j with
        | zero => simp [prevLen]
        | succ j2 => exact (hq j2).1
      omega
    have hk2 : prevLen j2len j + 1 ≤ j + 1 - blo := by
      cases j with
      | zero =>
        have : blo = 0 := Nat.le_zero.mp hjlo
        simp [prevLen, this]
      | succ j2 =>
        rcases Nat.eq_zero_or_pos (j2len j2) with h0 | hpos
        · simp only [prevLen, h0]
          omega
        · have := (hq j2).2 (Nat.pos_iff_ne_zero.mp hpos)
          simp only [prevLen]
          omega
    have hfst : (dpRowStep j2len i st j).1
        = fun x => if x = j then prevLen j2len j + 1 else st.1 x := rfl
    have hsnd : (dpRowStep j2len i st j).2
        = if st.2.size < prevLen j2len j + 1 then
            MatchB.mk (i + 1 - (prevLen j2len j + 1)) (j + 1 - (prevLen j2len j + 1))
              (prevLen j2len j + 1)
          else st.2 := rfl
    refine ih (fun x hx => hmem x (by simp [hx])) (dpRowStep j2len i st j) ?_ ?_
    · intro x
      rw [hfst]
      simp only
      split
      · subst_vars
        exact ⟨hk1, fun _ => ⟨hjlo, hk2⟩⟩
      · exact hf x
    · rw [hsnd]
      split
      · right
        refine ⟨?_, ?_, ?_, ?_, ?_⟩ <;> dsimp only <;> omega
      · exact hm

theorem dpLoop_bounds (a b : List α) (alo ahi blo bhi : Nat) :
    dpLoop a b alo ahi blo bhi = MatchB.mk alo blo 0 ∨
      (alo ≤ (dpLoop a b alo ahi blo bhi).a ∧ blo ≤ (dpLoop a b alo ahi blo bhi).b ∧
        (dpLoop a b alo ahi blo bhi).a + (dpLoop a b alo ahi blo bhi).size ≤ ahi ∧
        (dpLoop a b alo ahi blo bhi).b + (dpLoop a b alo ahi blo bhi).size ≤ bhi ∧
        0 < (dpLoop a b alo ahi blo bhi).size) := by
  unfold dpLoop
  have main : ∀ (m s : Nat) (st : (Nat → Nat) × MatchB), alo ≤ s → s + m ≤ ahi →
      (∀ j, st.1 j ≤ s - alo ∧ (st.1 j ≠ 0 → blo ≤ j ∧ st.1 j ≤ j + 1 - blo)) →
      (st.2 = MatchB.mk alo blo 0 ∨
        (alo ≤ st.2.a ∧ blo ≤ st.2.b ∧ st.2.a + st.2.size ≤ ahi ∧
          st.2.b + st.2.size ≤ bhi ∧ 0 < st.2.size)) →
      (((List.range' s m).foldl
          (fun st i => dpRow st.1 i (jsFor a b blo bhi i) st.2) st).2
          = MatchB.mk alo blo 0 ∨
        (alo ≤ (((List.range' s m).foldl
            (fun st i => dpRow st.1 i (jsFor a b blo bhi i) st.2) st).2).a ∧
          blo ≤ (((List.range' s m).foldl
            (fun st i => dpRow st.1 i (jsFor a b blo bhi i) st.2) st).2).b ∧
          (((List.range' s m).foldl
            (fun st i => dpRow st.1 i (jsFor a b blo bhi i) st.2) st).2).a
            + (((List.range' s m).foldl
              (fun st i => dpRow st.1 i (jsFor a b blo bhi i) st.2) st).2).size ≤ ahi ∧
          (((List.range' s m).foldl
            (fun st i => dpRow st.1 i (jsFor a b blo bhi i) st.2) st).2).b
            + (((List.range' s m).foldl
              (fun st i => dpRow st.1 i (jsFor a b blo bhi i) st.2) st).2).size ≤ bhi ∧
          0 < (((List.range' s m).foldl
            (fun st i => dpRow st.1 i (jsFor a b blo bhi i) st.2) st).2).size)) := by
    intro m
    induction m with
    | zero => intro s st _ _ _ hb; exact hb
    | succ m2 ih =>
      intro s st hs hsb hq hb
      rw [List.range'_succ, List.foldl_cons]
      have hdp : dpRow st.1 s (jsFor a b blo bhi s) st.2
          = List.foldl (dpRowStep st.1 s) ((fun _ => 0), st.2) (jsFor a b blo bhi s) := rfl
      have step := @dpFold_inv alo ahi blo bhi s hs (by omega) st.1 hq
        (jsFor a b blo bhi s) (fun j hj => mem_jsFor hj) ((fun _ => 0), st.2)
        (fun x => ⟨Nat.zero_le _, fun h => absurd rfl h⟩) hb
      refine ih (s + 1) (dpRow st.1 s (jsFor a b blo bhi s) st.2) (by omega) (by omega)
        (fun j => ?_) (by rw [hdp]; exact step.2)
      rw [hdp]
      exact step.1 j
  rcases le_or_lt alo ahi with hle | hlt
  · exact main (ahi - alo) alo _ le_rfl (by omega) (fun j => by simp) (Or.inl rfl)
  · have h0 : ahi - alo = 0 := by omega
    rw [h0]
    exact Or.inl rfl

theorem extendLeft_spec (a b : List α) (alo blo : Nat) :
    ∀ (bi bj s : Nat), alo ≤ bi → blo ≤ bj →
      alo ≤ (extendLeft a b alo blo bi bj s).a ∧
      blo ≤ (extendLeft a b alo blo bi bj s).b ∧
      (extendLeft a b alo blo bi bj s).a + (extendLeft a b alo blo bi bj s).size = bi + s ∧
      (extendLeft a b alo blo bi bj s).b + (extendLeft a b alo blo bi bj s).size = bj + s := by
  intro bi
  induction bi with
  | zero =>
    intro bj s h1 h2
    exact ⟨h1, h2, rfl, rfl⟩
  | succ bi2 ih =>
    intro bj s h1 h2
    have hunf : extendLeft a b alo blo (bi2 + 1) bj s =
        if alo ≤ bi2 ∧ blo < bj ∧ elemEq a b bi2 (bj - 1) = true then
          extendLeft a b alo blo bi2 (bj - 1) (s + 1)
        else MatchB.mk (bi2 + 1) bj s := rfl
    rw [hunf]
    split
    · rename_i hcond
      obtain ⟨hc1, hc2, -⟩ := hcond
      obtain ⟨g1, g2, g3, g4⟩ := ih (bj - 1) (s + 1) hc1 (by omega)
      exact ⟨g1, g2, by omega, by omega⟩
    · exact ⟨h1, h2, rfl, rfl⟩

theorem extendRightAux_spec (a b : List α) (bhi bi bj : Nat) :
    ∀ (f s : Nat),
      s ≤ extendRightAux a b bhi bi bj f s ∧
      extendRightAux a b bhi bi bj f s ≤ s + f ∧
      (extendRightAux a b bhi bi bj f s = s ∨
        bj + extendRightAux a b bhi bi bj f s ≤ bhi) := by
  intro f
  induction f with
  | zero =>
    intro s
    have h0 : extendRightAux a b bhi bi bj 0 s = s := rfl
    rw [h0]
    exact ⟨le_rfl, by omega, Or.inl rfl⟩
  | succ f2 ih =>
    intro s
    have hunf : extendRightAux a b bhi bi bj (f2 + 1) s =
        if bj + s < bhi ∧ elemEq a b (bi + s) (bj + s) = true then
          extendRightAux a b bhi bi bj f2 (s + 1)
        else s := rfl
    rw [hunf]
    split
    · rename_i hcond
      obtain ⟨g1, g2, g3⟩ := ih (s + 1)
      refine ⟨by omega, by omega, Or.inr ?_⟩
      rcases g3 with h | h
      · omega
      · exact h
    · exact ⟨le_rfl, by omega, Or.inl rfl⟩

/-- Every nonempty match returned by `find_longest_match` lies inside the
queried box: `alo ≤ i`, `blo ≤ j`, `i + k ≤ ahi`, `j + k ≤ bhi`. -/
theorem findLongestMatch_bounds (a b : List α) (alo ahi blo bhi : Nat)
    (hk : (findLongestMatch a b alo ahi blo bhi).size ≠ 0) :
    alo ≤ (findLongestMatch a b alo ahi blo bhi).a ∧
    blo ≤ (findLongestMatch a b alo ahi blo bhi).b ∧
    (findLongestMatch a b alo ahi blo bhi).a
      + (findLongestMatch a b alo ahi blo bhi).size ≤ ahi ∧
    (findLongestMatch a b alo ahi blo bhi).b
      + (findLongestMatch a b alo ahi blo bhi).size ≤ bhi := by
  have h1 : alo ≤ (dpLoop a b alo ahi blo bhi).a := by
    rcases dpLoop_bounds a b alo ahi blo bhi with h0 | h0
    · rw [h0]
    · exact h0.1
  have h2 : blo ≤ (dpLoop a b alo ahi blo bhi).b := by
    rcases dpLoop_bounds a b alo ahi blo bhi with h0 | h0
    · rw [h0]
    · exact h0.2.1
  obtain ⟨e1, e2, e3, e4⟩ := extendLeft_spec a b alo blo (dpLoop a b alo ahi blo bhi).a
    (dpLoop a b alo ahi blo bhi).b (dpLoop a b alo ahi blo bhi).size h1 h2
  set m1 := extendLeft a b alo blo (dpLoop a b alo ahi blo bhi).a
    (dpLoop a b alo ahi blo bhi).b (dpLoop a b alo ahi blo bhi).size with hm1
  obtain ⟨r1, r2, r3⟩ :=
    extendRightAux_spec a b bhi m1.a m1.b (ahi - (m1.a + m1.size)) m1.size
  have hga : (findLongestMatch a b alo ahi blo bhi).a = m1.a := rfl
  have hgb : (findLongestMatch a b alo ahi blo bhi).b = m1.b := rfl
  have hgs : (findLongestMatch a b alo ahi blo bhi).size
      = extendRightAux a b bhi m1.a m1.b (ahi - (m1.a + m1.size)) m1.size := rfl
  rw [hgs] at hk
  rw [hga, hgb, hgs]
  rcases dpLoop_bounds a b alo ahi blo bhi with h0 | ⟨q1, q2, q3, q4, q5⟩
  · have ha0 : (dpLoop a b alo ahi blo bhi).a = alo := by rw [h0]
    have hb0 : (dpLoop a b alo ahi blo bhi).b = blo := by rw [h0]
    have hs0 : (dpLoop a b alo ahi blo bhi).size = 0 := by rw [h0]
    rw [ha0, hs0] at e3
    rw [hb0, hs0] at e4
    rcases r3 with h | h
    · omega
    · refine ⟨e1, e2, by omega, by omega⟩
  · rcases r3 with h | h
    · refine ⟨e1, e2, by omega, by omega⟩
    · refine ⟨e1, e2, by omega, by omega⟩

/-! ### Chain structure of matching blocks and opcodes (C8, C10) -/

theorem chained_weaken {ahi bhi : Nat} :
    ∀ (L : List MatchB) (alo blo alo2 blo2 : Nat), alo ≤ alo2 → blo ≤ blo2 →
      ChainedUpto ahi bhi alo2 blo2 L → ChainedUpto ahi bhi alo blo L := by
  intro L
  cases L with
  | nil => intro alo blo alo2 blo2 h1 h2 h; exact ⟨le_trans h1 h.1, le_trans h2 h.2⟩
  | cons m rest =>
    intro alo blo alo2 blo2 h1 h2 h
    exact ⟨le_trans h1 h.1, le_trans h2 h.2.1, h.2.2⟩

theorem chained_append {ahi bhi : Nat} :
    ∀ (L1 L2 : List MatchB) (alo blo mid1 mid2 : Nat),
      ChainedUpto mid1 mid2 alo blo L1 → ChainedUpto ahi bhi mid1 mid2 L2 →
      ChainedUpto ahi bhi alo blo (L1 ++ L2) := by
  intro L1
  induction L1 with
  | nil =>
    intro L2 alo blo mid1 mid2 h1 h2
    exact chained_weaken L2 alo blo mid1 mid2 h1.1 h1.2 h2
  | cons m rest ih =>
    intro L2 alo blo mid1 mid2 h1 h2
    exact ⟨h1.1, h1.2.1, h1.2.2.1, ih L2 _ _ mid1 mid2 h1.2.2.2 h2⟩

theorem matchingBlocksAux_chained (a b : List α) :
    ∀ (fuel alo ahi blo bhi : Nat), alo ≤ ahi → blo ≤ bhi →
      ChainedUpto ahi bhi alo blo (matchingBlocksAux a b fuel alo ahi blo bhi) := by
  intro fuel
  induction fuel with
  | zero => intro alo ahi blo bhi h1 h2; exact ⟨h1, h2⟩
  | succ fuel ih =>
    intro alo ahi blo bhi h1 h2
    have hunf : matchingBlocksAux a b (fuel + 1) alo ahi blo bhi =
        if (findLongestMatch a b alo ahi blo bhi).size = 0 then []
        else
          (if alo < (findLongestMatch a b alo ahi blo bhi).a ∧
              blo < (findLongestMatch a b alo ahi blo bhi).b then
            matchingBlocksAux a b fuel alo (findLongestMatch a b alo ahi blo bhi).a
              blo (findLongestMatch a b alo ahi blo bhi).b else [])
          ++ findLongestMatch a b alo ahi blo bhi ::
          (if (findLongestMatch a b alo ahi blo bhi).a
                + (findLongestMatch a b alo ahi blo bhi).size < ahi ∧
              (findLongestMatch a b alo ahi blo bhi).b
                + (findLongestMatch a b alo ahi blo bhi).size < bhi then
            matchingBlocksAux a b fuel
              ((findLongestMatch a b alo ahi blo bhi).a
                + (findLongestMatch a b alo ahi blo bhi).size) ahi
              ((findLongestMatch a b alo ahi blo bhi).b
                + (findLongestMatch a b alo ahi blo bhi).size) bhi else []) := rfl
    rw [hunf]
    split
    · exact ⟨h1, h2⟩
    · rename_i hk
      obtain ⟨g1, g2, g3, g4⟩ := findLongestMatch_bounds a b alo ahi blo bhi hk
      refine chained_append _ _ alo blo (findLongestMatch a b alo ahi blo bhi).a
        (findLongestMatch a b alo ahi blo bhi).b ?_ ?_
      · split
        · rename_i hg
          exact ih alo _ blo _ (le_of_lt hg.1) (le_of_lt hg.2)
        · exact ⟨g1, g2⟩
      · refine ⟨le_rfl, le_rfl, Nat.pos_of_ne_zero hk, ?_⟩
        split
        · rename_i hg
          exact ih _ ahi _ bhi (le_of_lt hg.1) (le_of_lt hg.2)
        · exact ⟨g3, g4⟩

theorem collapseLoop_chained {ahi bhi : Nat} :
    ∀ (L : List MatchB) (i1 j1 k1 : Nat),
      ChainedUpto ahi bhi (i1 + k1) (j1 + k1) L →
      ChainedUpto ahi bhi i1 j1 (collapseLoop i1 j1 k1 L) := by
  intro L
  induction L with
  | nil =>
    intro i1 j1 k1 h
    show ChainedUpto ahi bhi i1 j1 (if k1 ≠ 0 then [MatchB.mk i1 j1 k1] else [])
    split
    · exact ⟨le_rfl, le_rfl, Nat.pos_of_ne_zero (by assumption), h.1, h.2⟩
    · exact ⟨by have := h.1; omega, by have := h.2; omega⟩
  | cons m rest ih =>
    intro i1 j1 k1 h
    obtain ⟨h1, h2, h3, hrest⟩ := h
    show ChainedUpto ahi bhi i1 j1
      (if i1 + k1 = m.a ∧ j1 + k1 = m.b then collapseLoop i1 j1 (k1 + m.size) rest
       else (if k1 ≠ 0 then [MatchB.mk i1 j1 k1] else [])
          ++ collapseLoop m.a m.b m.size rest)
    split
    · rename_i hadj
      refine ih i1 j1 (k1 + m.size) ?_
      have e1 : i1 + (k1 + m.size) = m.a + m.size := by omega
      have e2 : j1 + (k1 + m.size) = m.b + m.size := by omega
      rw [e1, e2]
      exact hrest
    · have hcol := ih m.a m.b m.size hrest
      split
      · exact ⟨le_rfl, le_rfl, Nat.pos_of_ne_zero (by assumption),
          chained_weaken _ _ _ m.a m.b h1 h2 hcol⟩
      · exact chained_weaken _ _ _ m.a m.b (by omega) (by omega) hcol

theorem getMatchingBlocks_main_chained (a b : List α) :
    ChainedUpto a.length b.length 0 0
      (collapseLoop 0 0 0
        (matchingBlocksAux a b (a.length + b.length + 1) 0 a.length 0 b.length)) :=
  collapseLoop_chained _ 0 0 0
    (matchingBlocksAux_chained a b _ 0 a.length 0 b.length (Nat.zero_le _) (Nat.zero_le _))

theorem opcodesLoop_chain {la lb : Nat} :
    ∀ (L : List MatchB) (i j : Nat), ChainedUpto la lb i j L →
      OpChain la lb i j (opcodesLoop i j (L ++ [MatchB.mk la lb 0])) := by
  intro L
  induction L with
  | nil =>
    intro i j h
    obtain ⟨h1, h2⟩ := h
    show OpChain la lb i j
      ((if i < la ∧ j < lb then [Opcode.mk Tag.replace i la j lb]
        else if i < la then [Opcode.mk Tag.delete i la j lb]
        else if j < lb then [Opcode.mk Tag.insert i la j lb]
        else []) ++ (if (0 : Nat) ≠ 0 then
          [Opcode.mk Tag.equal la (la + 0) lb (lb + 0)] else [])
        ++ opcodesLoop (la + 0) (lb + 0) [])
    rw [if_neg (show ¬((0 : Nat) ≠ 0) by omega)]
    by_cases hc1 : i < la ∧ j < lb
    · rw [if_pos hc1]
      exact ⟨rfl, rfl, by dsimp only; omega, by dsimp only; omega, rfl, rfl⟩
    · rw [if_neg hc1]
      by_cases hc2 : i < la
      · rw [if_pos hc2]
        exact ⟨rfl, rfl, by dsimp only; omega, by dsimp only; omega, rfl, rfl⟩
      · rw [if_neg hc2]
        by_cases hc3 : j < lb
        · rw [if_pos hc3]
          exact ⟨rfl, rfl, by dsimp only; omega, by dsimp only; omega, rfl, rfl⟩
        · rw [if_neg hc3]
          exact ⟨by omega, by omega⟩
  | cons m rest ih =>
    intro i j h
    obtain ⟨h1, h2, h3, hrest⟩ := h
    have htail := ih (m.a + m.size) (m.b + m.size) hrest
    show OpChain la lb i j
      ((if i < m.a ∧ j < m.b then [Opcode.mk Tag.replace i m.a j m.b]
        else if i < m.a then [Opcode.mk Tag.delete i m.a j m.b]
        else if j < m.b then [Opcode.mk Tag.insert i m.a j m.b]
        else []) ++ (if m.size ≠ 0 then
          [Opcode.mk Tag.equal m.a (m.a + m.size) m.b (m.b + m.size)] else [])
        ++ opcodesLoop (m.a + m.size) (m.b + m.size) (rest ++ [MatchB.mk la lb 0]))
    rw [if_pos (show m.size ≠ 0 by omega)]
    by_cases hc1 : i < m.a ∧ j < m.b
    · rw [if_pos hc1]
      exact ⟨rfl, rfl, by dsimp only; omega, by dsimp only; omega, rfl, rfl,
        by dsimp only; omega, by dsimp only; omega, htail⟩
    · rw [if_neg hc1]
      by_cases hc2 : i < m.a
      · rw [if_pos hc2]
        exact ⟨rfl, rfl, by dsimp only; omega, by dsimp only; omega, rfl, rfl,
          by dsimp only; omega, by dsimp only; omega, htail⟩
      · rw [if_neg hc2]
        by_cases hc3 : j < m.b
        · rw [if_pos hc3]
          exact ⟨rfl, rfl, by dsimp only; omega, by dsimp only; omega, rfl, rfl,
            by dsimp only; omega, by dsimp only; omega, htail⟩
        · rw [if_neg hc3]
          exact ⟨by dsimp only; omega, by dsimp only; omega, by dsimp only; omega,
            by dsimp only; omega, htail⟩

theorem getOpcodes_chain (a b : List α) :
    OpChain a.length b.length 0 0 (getOpcodes a b) :=
  opcodesLoop_chain _ 0 0 (getMatchingBlocks_main_chained a b)

theorem opChain_le {la lb : Nat} :
    ∀ (L : List Opcode) (i j : Nat), OpChain la lb i j L → i ≤ la ∧ j ≤ lb := by
  intro L
  induction L with
  | nil => intro i j h; obtain ⟨h1, h2⟩ := h; omega
  | cons c rest ih =>
    intro i j h
    obtain ⟨h1, h2, h3, h4, hrest⟩ := h
    have := ih c.i2 c.j2 hrest
    omega

theorem opChain_mem_facts {la lb : Nat} :
    ∀ (L : List Opcode) (i j : Nat), OpChain la lb i j L →
      ∀ c ∈ L, i ≤ c.i1 ∧ j ≤ c.j1 ∧ c.i1 ≤ c.i2 ∧ c.j1 ≤ c.j2 ∧ c.i2 ≤ la ∧ c.j2 ≤ lb := by
  intro L
  induction L with
  | nil => intro i j _ c hc; cases hc
  | cons d rest ih =>
    intro i j h c hc
    obtain ⟨h1, h2, h3, h4, hrest⟩ := h
    have hle := opChain_le rest d.i2 d.j2 hrest
    rcases List.mem_cons.mp hc with rfl | hc
    · exact ⟨by omega, by omega, h3, h4, hle.1, hle.2⟩
    · have := ih d.i2 d.j2 hrest c hc
      exact ⟨by omega, by omega, this.2.2.1, this.2.2.2.1, this.2.2.2.2.1, this.2.2.2.2.2⟩

theorem opChain_pairwise {la lb : Nat} :
    ∀ (L : List Opcode) (i j : Nat), OpChain la lb i j L →
      L.Pairwise (fun c d => c.i2 ≤ d.i1 ∧ c.j2 ≤ d.j1) := by
  intro L
  induction L with
  | nil => intro i j _; exact List.Pairwise.nil
  | cons c rest ih =>
    intro i j h
    obtain ⟨h1, h2, h3, h4, hrest⟩ := h
    refine List.pairwise_cons.mpr ⟨?_, ih c.i2 c.j2 hrest⟩
    intro d hd
    have := opChain_mem_facts rest c.i2 c.j2 hrest d hd
    exact ⟨this.1, this.2.1⟩

theorem opChain_cover_a {la lb : Nat} :
    ∀ (L : List Opcode) (i j : Nat), OpChain la lb i j L →
      ∀ n, (i ≤ n ∧ n < la) ↔ ∃ c ∈ L, c.i1 ≤ n ∧ n < c.i2 := by
  intro L
  induction L with
  | nil =>
    intro i j h n
    obtain ⟨h1, h2⟩ := h
    simp only [List.not_mem_nil, false_and, exists_false, iff_false]
    omega
  | cons c rest ih =>
    intro i j h n
    obtain ⟨h1, h2, h3, h4, hrest⟩ := h
    have hle := opChain_le rest c.i2 c.j2 hrest
    constructor
    · rintro ⟨hn1, hn2⟩
      by_cases hn : n < c.i2
      · exact ⟨c, by simp, by omega, hn⟩
      · obtain ⟨d, hd, hdn⟩ := (ih c.i2 c.j2 hrest n).mp (by omega)
        exact ⟨d, by simp [hd], hdn⟩
    · rintro ⟨d, hd, hdn⟩
      rcases List.mem_cons.mp hd with rfl | hd
      · omega
      · have := opChain_mem_facts rest c.i2 c.j2 hrest d hd
        omega

theorem opChain_cover_b {la lb : Nat} :
    ∀ (L : List Opcode) (i j : Nat), OpChain la lb i j L →
      ∀ n, (j ≤ n ∧ n < lb) ↔ ∃ c ∈ L, c.j1 ≤ n ∧ n < c.j2 := by
  intro L
  induction L with
  | nil =>
    intro i j h n
    obtain ⟨h1, h2⟩ := h
    simp only [List.not_mem_nil, false_and, exists_false, iff_false]
    omega
  | cons c rest ih =>
    intro i j h n
    obtain ⟨h1, h2, h3, h4, hrest⟩ := h
    have hle := opChain_le rest c.i2 c.j2 hrest
    constructor
    · rintro ⟨hn1, hn2⟩
      by_cases hn : n < c.j2
      · exact ⟨c, by simp, by omega, hn⟩
      · obtain ⟨d, hd, hdn⟩ := (ih c.i2 c.j2 hrest n).mp (by omega)
        exact ⟨d, by simp [hd], hdn⟩
    · rintro ⟨d, hd, hdn⟩
      rcases List.mem_cons.mp hd with rfl | hd
      · omega
      · have := opChain_mem_facts rest c.i2 c.j2 hrest d hd
        omega

/-- C8: for every pair of line sequences, the opcodes of the computed
alignment are non-overlapping and monotonically increasing (pairwise, in
input order), every range is well-formed, and the union of the ranges is
exactly `[0, len(original))` on the original side and `[0, len(modernized))`
on the modernized side — no element omitted or double-counted. -/
theorem C8_opcode_coverage (a b : List (List Char)) :
    (∀ n, n < a.length ↔ ∃ c ∈ getOpcodes a b, c.i1 ≤ n ∧ n < c.i2) ∧
    (∀ n, n < b.length ↔ ∃ c ∈ getOpcodes a b, c.j1 ≤ n ∧ n < c.j2) ∧
    (getOpcodes a b).Pairwise (fun c d => c.i2 ≤ d.i1 ∧ c.j2 ≤ d.j1) ∧
    (∀ c ∈ getOpcodes a b, c.i1 ≤ c.i2 ∧ c.j1 ≤ c.j2 ∧ c.i2 ≤ a.length ∧ c.j2 ≤ b.length) := by
  have hchain := getOpcodes_chain a b
  refine ⟨?_, ?_, opChain_pairwise _ 0 0 hchain, ?_⟩
  · intro n
    have := opChain_cover_a _ 0 0 hchain n
    simpa using this
  · intro n
    have := opChain_cover_b _ 0 0 hchain n
    simpa using this
  · intro c hc
    have := opChain_mem_facts _ 0 0 hchain c hc
    exact ⟨this.2.2.1, this.2.2.2.1, this.2.2.2.2.1, this.2.2.2.2.2⟩

/-! ### C10: section range encoding -/

theorem opcodesLoop_tag_facts {la lb : Nat} :
    ∀ (L : List MatchB) (i j : Nat), ChainedUpto la lb i j L →
      ∀ c ∈ opcodesLoop i j (L ++ [MatchB.mk la lb 0]),
        (c.tag = Tag.replace → c.i1 < c.i2 ∧ c.j1 < c.j2) ∧
        (c.tag = Tag.delete → c.i1 < c.i2 ∧ c.j1 = c.j2) ∧
        (c.tag = Tag.insert → c.i1 = c.i2 ∧ c.j1 < c.j2) := by
  intro L
  induction L with
  | nil =>
    intro i j h c hc
    obtain ⟨h1, h2⟩ := h
    rw [show opcodesLoop i j ([] ++ [MatchB.mk la lb 0]) =
        (if i < la ∧ j < lb then [Opcode.mk Tag.replace i la j lb]
          else if i < la then [Opcode.mk Tag.delete i la j lb]
          else if j < lb then [Opcode.mk Tag.insert i la j lb]
          else []) ++ (if (0 : Nat) ≠ 0 then
            [Opcode.mk Tag.equal la (la + 0) lb (lb + 0)] else [])
          ++ opcodesLoop (la + 0) (lb + 0) [] from rfl,
      if_neg (show ¬((0 : Nat) ≠ 0) by omega),
      show opcodesLoop (la + 0) (lb + 0) ([] : List MatchB) = [] from rfl,
      List.append_nil, List.append_nil] at hc
    by_cases hc1 : i < la ∧ j < lb
    · rw [if_pos hc1] at hc
      rw [List.mem_singleton] at hc
      subst hc
      exact ⟨(fun _ => by dsimp only; omega), (fun ht => by cases ht), (fun ht => by cases ht)⟩
    · rw [if_neg hc1] at hc
      by_cases hc2 : i < la
      · rw [if_pos hc2] at hc
        rw [List.mem_singleton] at hc
        subst hc
        exact ⟨(fun ht => by cases ht), (fun _ => by dsimp only; omega), (fun ht => by cases ht)⟩
      · rw [if_neg hc2] at hc
        by_cases hc3 : j < lb
        · rw [if_pos hc3] at hc
          rw [List.mem_singleton] at hc
          subst hc
          exact ⟨(fun ht => by cases ht), (fun ht => by cases ht), (fun _ => by dsimp only; omega)⟩
        · rw [if_neg hc3] at hc
          cases hc
  | cons m rest ih =>
    intro i j h c hc
    obtain ⟨h1, h2, h3, hrest⟩ := h
    rw [show opcodesLoop i j ((m :: rest) ++ [MatchB.mk la lb 0]) =
        (if i < m.a ∧ j < m.b then [Opcode.mk Tag.replace i m.a j m.b]
          else if i < m.a then [Opcode.mk Tag.delete i m.a j m.b]
          else if j < m.b then [Opcode.mk Tag.insert i m.a j m.b]
          else []) ++ (if m.size ≠ 0 then
            [Opcode.mk Tag.equal m.a (m.a + m.size) m.b (m.b + m.size)] else [])
          ++ opcodesLoop (m.a + m.size) (m.b + m.size) (rest ++ [MatchB.mk la lb 0])
        from rfl,
      if_pos (show m.size ≠ 0 by omega)] at hc
    have heq2 : (Opcode.mk Tag.equal m.a (m.a + m.size) m.b (m.b + m.size)).tag
        = Tag.equal := rfl
    by_cases hc1 : i < m.a ∧ j < m.b
    · rw [if_pos hc1] at hc
      rcases List.mem_append.mp hc with hcl | hc
      · rcases List.mem_append.mp hcl with hcl2 | hcl2
        · rw [List.mem_singleton] at hcl2
          subst hcl2
          exact ⟨(fun _ => by dsimp only; omega), (fun ht => by cases ht),
            (fun ht => by cases ht)⟩
        · rw [List.mem_singleton] at hcl2
          subst hcl2
          exact ⟨(fun ht => by cases ht), (fun ht => by cases ht), (fun ht => by cases ht)⟩
      · exact ih (m.a + m.size) (m.b + m.size) hrest c hc
    · rw [if_neg hc1] at hc
      by_cases hc2 : i < m.a
      · rw [if_pos hc2] at hc
        rcases List.mem_append.mp hc with hcl | hc
        · rcases List.mem_append.mp hcl with hcl2 | hcl2
          · rw [List.mem_singleton] at hcl2
            subst hcl2
            exact ⟨(fun ht => by cases ht), (fun _ => by dsimp only; omega),
              (fun ht => by cases ht)⟩
          · rw [List.mem_singleton] at hcl2
            subst hcl2
            exact ⟨(fun ht => by cases ht), (fun ht => by cases ht), (fun ht => by cases ht)⟩
        · exact ih (m.a + m.size) (m.b + m.size) hrest c hc
      · rw [if_neg hc2] at hc
        by_cases hc3 : j < m.b
        · rw [if_pos hc3] at hc
          rcases List.mem_append.mp hc with hcl | hc
          · rcases List.mem_append.mp hcl with hcl2 | hcl2
            · rw [List.mem_singleton] at hcl2
              subst hcl2
              exact ⟨(fun ht => by cases ht), (fun ht => by cases ht),
                (fun _ => by dsimp only; omega)⟩
            · rw [List.mem_singleton] at hcl2
              subst hcl2
              exact ⟨(fun ht => by cases ht), (fun ht => by cases ht), (fun ht => by cases ht)⟩
          · exact ih (m.a + m.size) (m.b + m.size) hrest c hc
        · rw [if_neg hc3] at hc
          rcases List.mem_append.mp hc with hcl | hc
          · rcases List.mem_append.mp hcl with hcl2 | hcl2
            · cases hcl2
            · rw [List.mem_singleton] at hcl2
              subst hcl2
              exact ⟨(fun ht => by cases ht), (fun ht => by cases ht), (fun ht => by cases ht)⟩
          · exact ih (m.a + m.size) (m.b + m.size) hrest c hc

theorem getOpcodes_tag_facts (a b : List α) :
    ∀ c ∈ getOpcodes a b,
      (c.tag = Tag.replace → c.i1 < c.i2 ∧ c.j1 < c.j2) ∧
      (c.tag = Tag.delete → c.i1 < c.i2 ∧ c.j1 = c.j2) ∧
      (c.tag = Tag.insert → c.i1 = c.i2 ∧ c.j1 < c.j2) :=
  opcodesLoop_tag_facts _ 0 0 (getMatchingBlocks_main_chained a b)

/-- C10: in every emitted ChangedSection the 1-based ranges encode emptiness
by inversion — `original_start = original_end + 1` exactly when the section
type is `insert`, `modernized_start = modernized_end + 1` exactly when it is
`delete` — in all other cases `start ≤ end` on both sides, and at least one
of the two stripped code slices is non-empty. -/
theorem C10_section_ranges (ol ml : List (List Char)) :
    ∀ s ∈ extractChangedSections ol ml,
      (s.original_start = s.original_end + 1 ↔ s.type = Tag.insert) ∧
      (s.modernized_start = s.modernized_end + 1 ↔ s.type = Tag.delete) ∧
      (s.type ≠ Tag.insert → s.original_start ≤ s.original_end) ∧
      (s.type ≠ Tag.delete → s.modernized_start ≤ s.modernized_end) ∧
      (s.original_code ≠ [] ∨ s.modernized_code ≠ []) := by
  intro s hs
  unfold extractChangedSections at hs
  obtain ⟨c, hc, hfc⟩ := List.mem_filterMap.mp hs
  have hfacts := getOpcodes_tag_facts ol ml c hc
  have hbounds := opChain_mem_facts _ 0 0 (getOpcodes_chain ol ml) c hc
  by_cases he : c.tag = Tag.equal
  · rw [if_pos he] at hfc
    cases hfc
  · rw [if_neg he] at hfc
    simp only at hfc
    split at hfc
    · rename_i hcond
      injection hfc with hfc
      subst hfc
      simp only at hcond ⊢
      have hi12 : c.i1 ≤ c.i2 := hbounds.2.2.1
      have hj12 : c.j1 ≤ c.j2 := hbounds.2.2.2.1
      refine ⟨?_, ?_, ?_, ?_, hcond⟩
      · constructor
        · intro hstart
          cases ht : c.tag with
          | equal => exact absurd ht he
          | replace => have := hfacts.1 ht; omega
          | delete => have := hfacts.2.1 ht; omega
          | insert => rfl
        · intro ht
          have := hfacts.2.2 ht
          omega
      · constructor
        · intro hstart
          cases ht : c.tag with
          | equal => exact absurd ht he
          | replace => have := hfacts.1 ht; omega
          | insert => have := hfacts.2.2 ht; omega
          | delete => rfl
        · intro ht
          have := hfacts.2.1 ht
          omega
      · intro ht
        cases ht2 : c.tag with
        | equal => exact absurd ht2 he
        | replace => have := hfacts.1 ht2; omega
        | delete => have := hfacts.2.1 ht2; omega
        | insert => exact absurd ht2 ht
      · intro ht
        cases ht2 : c.tag with
        | equal => exact absurd ht2 he
        | replace => have := hfacts.1 ht2; omega
        | insert => have := hfacts.2.2 ht2; omega
        | delete => exact absurd ht2 ht
    · cases hfc

theorem C10_section_ranges_witness :
    (scenarioSection.original_start = scenarioSection.original_end + 1 ↔
      scenarioSection.type = Tag.insert) ∧
    (scenarioSection.modernized_start = scenarioSection.modernized_end + 1 ↔
      scenarioSection.type = Tag.delete) ∧
    (scenarioSection.type ≠ Tag.insert →
      scenarioSection.original_start ≤ scenarioSection.original_end) ∧
    (scenarioSection.type ≠ Tag.delete →
      scenarioSection.modernized_start ≤ scenarioSection.modernized_end) ∧
    (scenarioSection.original_code ≠ [] ∨ scenarioSection.modernized_code ≠ []) :=
  C10_section_ranges (splitlines scenarioOriginal) (splitlines scenarioModern)
    scenarioSection (by decide)

/-! ### C5: disjointness -/

theorem occ_disjoint {A B : List α} (hdisj : ∀ c ∈ A, c ∉ B) {x : α} (hx : x ∈ A) :
    occ B x = [] := by
  unfold occ
  rw [List.filter_eq_nil_iff]
  intro j _
  simp only [decide_eq_true_eq]
  intro hBj
  exact hdisj x hx (List.getElem?_mem hBj)

theorem jsFor_disjoint {A B : List α} (hdisj : ∀ c ∈ A, c ∉ B) (blo bhi i : Nat) :
    jsFor A B blo bhi i = [] := by
  unfold jsFor
  rcases ha : A[i]? with _ | x
  · rfl
  · have hxA : x ∈ A := List.getElem?_mem ha
    have hocc : occ B x = [] := occ_disjoint hdisj hxA
    have hb2j : b2j B x = [] := by
      unfold b2j
      rw [hocc]
      simp
    show (b2j B x).filter (fun j => decide (blo ≤ j) && decide (j < bhi)) = []
    rw [hb2j]
    rfl

theorem dpLoop_empty_js {A B : List α} {blo bhi : Nat}
    (hjs : ∀ i, jsFor A B blo bhi i = []) (alo ahi : Nat) :
    dpLoop A B alo ahi blo bhi = MatchB.mk alo blo 0 := by
  unfold dpLoop
  have main : ∀ (rows : List Nat) (st : (Nat → Nat) × MatchB),
      ((rows.foldl (fun st i => dpRow st.1 i (jsFor A B blo bhi i) st.2) st)).2 = st.2 := by
    intro rows
    induction rows with
    | nil => intro st; rfl
    | cons r rest ih =>
      intro st
      rw [List.foldl_cons, hjs r]
      exact ih _
  exact main _ _

theorem elemEq_disjoint {A B : List α} (hdisj : ∀ c ∈ A, c ∉ B) (i j : Nat) :
    elemEq A B i j = false := by
  unfold elemEq
  rcases ha : A[i]? with _ | x
  · rfl
  · rcases hb : B[j]? with _ | y
    · rfl
    · simp only [decide_eq_false_iff_not]
      intro hxy
      subst hxy
      exact hdisj x (List.getElem?_mem ha) (List.getElem?_mem hb)

theorem findLongestMatch_disjoint {A B : List α} (hdisj : ∀ c ∈ A, c ∉ B) :
    findLongestMatch A B 0 A.length 0 B.length = MatchB.mk 0 0 0 := by
  have h0 : dpLoop A B 0 A.length 0 B.length = MatchB.mk 0 0 0 :=
    dpLoop_empty_js (fun i => jsFor_disjoint hdisj 0 B.length i) 0 A.length
  have h1 : findLongestMatch A B 0 A.length 0 B.length
      = MatchB.mk (extendLeft A B 0 0 (dpLoop A B 0 A.length 0 B.length).a
          (dpLoop A B 0 A.length 0 B.length).b (dpLoop A B 0 A.length 0 B.length).size).a
        (extendLeft A B 0 0 (dpLoop A B 0 A.length 0 B.length).a
          (dpLoop A B 0 A.length 0 B.length).b (dpLoop A B 0 A.length 0 B.length).size).b
        (extendRight A B A.length B.length
          (extendLeft A B 0 0 (dpLoop A B 0 A.length 0 B.length).a
            (dpLoop A B 0 A.length 0 B.length).b (dpLoop A B 0 A.length 0 B.length).size).a
          (extendLeft A B 0 0 (dpLoop A B 0 A.length 0 B.length).a
            (dpLoop A B 0 A.length 0 B.length).b (dpLoop A B 0 A.length 0 B.length).size).b
          (extendLeft A B 0 0 (dpLoop A B 0 A.length 0 B.length).a
            (dpLoop A B 0 A.length 0 B.length).b
            (dpLoop A B 0 A.length 0 B.length).size).size) := rfl
  rw [h1, h0]
  have hel : extendLeft A B 0 0 (MatchB.mk 0 0 0).a (MatchB.mk 0 0 0).b
      (MatchB.mk 0 0 0).size = MatchB.mk 0 0 0 := rfl
  rw [hel]
  have her : extendRight A B A.length B.length 0 0 0 = 0 := by
    unfold extendRight
    cases hf : A.length - (0 + 0) with
    | zero => rfl
    | succ f =>
      rw [show extendRightAux A B B.length 0 0 (f + 1) 0
          = if 0 + 0 < B.length ∧ elemEq A B (0 + 0) (0 + 0) = true then
              extendRightAux A B B.length 0 0 f (0 + 1) else 0 from rfl,
        if_neg]
      rintro ⟨-, habs⟩
      rw [elemEq_disjoint hdisj] at habs
      cases habs
  rw [her]

/-- C5: for every pair of non-empty texts sharing no characters, `compare`
yields `diff_ratio == 0.0`; and the ratio is computed from the
character-level (not line-level) alignment of the two full texts as
`2*M/T*100` (then rounded to two decimals), with `M` the matched character
count and `T` the sum of both lengths. -/
theorem C5_disjoint_ratio (A B fn : List Char) (hA : A ≠ []) (hB : B ≠ [])
    (hdisj : ∀ c ∈ A, c ∉ B) :
    (generateFileDiff A B fn).diff_ratio = 0 ∧
    (generateFileDiff A B fn).diff_ratio
      = round2 (2 * (matchesTotal A B : ℚ) / ((A.length : ℚ) + (B.length : ℚ)) * 100) := by
  have hga : (generateFileDiff A B fn).diff_ratio = round2 (ratioQ A B * 100) := rfl
  have hT : A.length + B.length ≠ 0 := by
    have : 0 < A.length := List.length_pos.mpr hA
    omega
  have hratio : ratioQ A B = 2 * (matchesTotal A B : ℚ) / ((A.length : ℚ) + (B.length : ℚ)) := by
    unfold ratioQ
    rw [if_pos hT]
  constructor
  · have hM : matchesTotal A B = 0 := by
      unfold matchesTotal getMatchingBlocks
      have hfuel : A.length + B.length + 1 = (A.length + B.length) + 1 := rfl
      rw [show matchingBlocksAux A B (A.length + B.length + 1) 0 A.length 0 B.length
          = (if (findLongestMatch A B 0 A.length 0 B.length).size = 0 then ([] : List MatchB)
            else (if 0 < (findLongestMatch A B 0 A.length 0 B.length).a ∧
                0 < (findLongestMatch A B 0 A.length 0 B.length).b then
              matchingBlocksAux A B (A.length + B.length) 0
                (findLongestMatch A B 0 A.length 0 B.length).a 0
                (findLongestMatch A B 0 A.length 0 B.length).b else [])
            ++ findLongestMatch A B 0 A.length 0 B.length ::
            (if (findLongestMatch A B 0 A.length 0 B.length).a
                  + (findLongestMatch A B 0 A.length 0 B.length).size < A.length ∧
                (findLongestMatch A B 0 A.length 0 B.length).b
                  + (findLongestMatch A B 0 A.length 0 B.length).size < B.length then
              matchingBlocksAux A B (A.length + B.length)
                ((findLongestMatch A B 0 A.length 0 B.length).a
                  + (findLongestMatch A B 0 A.length 0 B.length).size) A.length
                ((findLongestMatch A B 0 A.length 0 B.length).b
                  + (findLongestMatch A B 0 A.length 0 B.length).size) B.length else []))
          from rfl]
      rw [findLongestMatch_disjoint hdisj]
      rw [if_pos rfl]
      rfl
    rw [hga, hratio, hM]
    norm_num [round2, roundHalfEven]
  · rw [hga, hratio]

theorem C5_disjoint_ratio_witness :
    (generateFileDiff ("ab").toList ("cd").toList ("f.java").toList).diff_ratio = 0 ∧
    (generateFileDiff ("ab").toList ("cd").toList ("f.java").toList).diff_ratio
      = round2 (2 * (matchesTotal ("ab").toList ("cd").toList : ℚ)
          / ((("ab").toList.length : ℚ) + (("cd").toList.length : ℚ)) * 100) :=
  C5_disjoint_ratio ("ab").toList ("cd").toList ("f.java").toList
    (by decide) (by decide) (by decide)

/-! ### C2: added/removed counts -/

theorem countP_flatten {p : List Char → Bool} :
    ∀ (L : List (List (List Char))), (L.flatten).countP p = (L.map (fun l => l.countP p)).sum := by
  intro L
  induction L with
  | nil => rfl
  | cons l rest ih => simp [List.countP_append, ih]

/-- Non-equal opcodes pass through the grouping loop exactly once, in order;
only `equal` opcodes are split, trimmed or dropped. -/
theorem groupLoop_flatten_filter (n : Nat) :
    ∀ (codes group : List Opcode),
      ((groupLoop n group codes).flatten).filter (fun c => !decide (c.tag = Tag.equal))
        = group.filter (fun c => !decide (c.tag = Tag.equal))
          ++ codes.filter (fun c => !decide (c.tag = Tag.equal)) := by
  intro codes
  induction codes with
  | nil =>
    intro group
    match group with
    | [] => rfl
    | [c] =>
      show ((if c.tag = Tag.equal then ([] : List (List Opcode)) else [[c]]).flatten).filter
          (fun c => !decide (c.tag = Tag.equal)) = _
      by_cases hc : c.tag = Tag.equal
      · rw [if_pos hc]
        simp [List.filter_cons, hc]
      · rw [if_neg hc]
        simp [List.filter_cons, hc]
    | c1 :: c2 :: rest2 =>
      show (([c1 :: c2 :: rest2] : List (List Opcode)).flatten).filter
          (fun c => !decide (c.tag = Tag.equal)) = _
      simp
  | cons c rest ih =>
    intro group
    show (if c.tag = Tag.equal ∧ n + n < c.i2 - c.i1 then
        ((group ++ [Opcode.mk Tag.equal c.i1 (min c.i2 (c.i1 + n)) c.j1 (min c.j2 (c.j1 + n))])
          :: groupLoop n
              [Opcode.mk Tag.equal (max c.i1 (c.i2 - n)) c.i2 (max c.j1 (c.j2 - n)) c.j2] rest)
      else groupLoop n (group ++ [c]) rest).flatten.filter _ = _
    split
    · rename_i hcond
      simp [List.flatten_cons, List.filter_append, List.filter_cons, ih, hcond.1]
    · rw [ih]
      by_cases hc : c.tag = Tag.equal <;>
        simp [List.filter_append, List.filter_cons, hc]

theorem filter_trimHead (n : Nat) (codes : List Opcode) :
    (trimHead n codes).filter (fun c => !decide (c.tag = Tag.equal))
      = codes.filter (fun c => !decide (c.tag = Tag.equal)) := by
  cases codes with
  | nil => rfl
  | cons c rest =>
    show (if c.tag = Tag.equal then
        Opcode.mk Tag.equal (max c.i1 (c.i2 - n)) c.i2 (max c.j1 (c.j2 - n)) c.j2 :: rest
      else c :: rest).filter _ = _
    split
    · rename_i hc
      rw [List.filter_cons, List.filter_cons]
      simp [hc]
    · rfl

theorem filter_trimLast (n : Nat) (codes : List Opcode) :
    (trimLast n codes).filter (fun c => !decide (c.tag = Tag.equal))
      = codes.filter (fun c => !decide (c.tag = Tag.equal)) := by
  rcases hlast : codes.getLast? with _ | c
  · have h0 : trimLast n codes = [] := by
      unfold trimLast
      rw [hlast]
    rw [h0, List.getLast?_eq_none_iff.mp hlast]
  · have hsplit : codes = codes.dropLast ++ [c] :=
      (List.dropLast_append_getLast? c (Option.mem_def.mpr hlast)).symm
    have htl : trimLast n codes =
        if c.tag = Tag.equal then
          codes.dropLast
            ++ [Opcode.mk Tag.equal c.i1 (min c.i2 (c.i1 + n)) c.j1 (min c.j2 (c.j1 + n))]
        else codes := by
      unfold trimLast
      rw [hlast]
    rw [htl]
    split
    · rename_i hc
      conv_rhs => rw [hsplit]
      simp [List.filter_append, List.filter_cons, hc]
    · rfl

theorem countsAsAdded_space (l : List Char) : countsAsAdded (' ' :: l) = false := rfl

theorem countsAsAdded_minus (l : List Char) : countsAsAdded ('-' :: l) = false := rfl

theorem countsAsAdded_plus (l : List Char) :
    countsAsAdded ('+' :: l) = ! startsWithL ['+', '+'] l := rfl

theorem countsAsRemoved_space (l : List Char) : countsAsRemoved (' ' :: l) = false := rfl

theorem countsAsRemoved_plus (l : List Char) : countsAsRemoved ('+' :: l) = false := rfl

theorem countsAsRemoved_minus (l : List Char) :
    countsAsRemoved ('-' :: l) = ! startsWithL ['-', '-'] l := rfl

theorem pySlice_length {l : List α} {i j : Nat} (h : j ≤ l.length) :
    (pySlice l i j).length = j - i := by
  unfold pySlice
  rw [List.length_take, List.length_drop]
  omega

theorem pySlice_subset (l : List α) (i j : Nat) : pySlice l i j ⊆ l :=
  fun x hx => List.drop_subset i l (List.take_subset (j - i) (l.drop i) hx)

theorem sum_map_flatten {β : Type} (f : β → Nat) :
    ∀ (L : List (List β)), ((L.flatten).map f).sum = (L.map (fun g => (g.map f).sum)).sum := by
  intro L
  induction L with
  | nil => rfl
  | cons g rest ih =>
    simp [ih]
    rfl

theorem sum_map_ite {β : Type} (p : β → Prop) [DecidablePred p] (f : β → Nat) :
    ∀ (L : List β), (L.map (fun c => if p c then f c else 0)).sum
      = ((L.filter (fun c => decide (p c))).map f).sum := by
  intro L
  induction L with
  | nil => rfl
  | cons c rest ih =>
    rw [List.map_cons, List.sum_cons, ih, List.filter_cons]
    by_cases hc : p c <;> simp [hc]

theorem sum_map_drop_zero {β : Type} (q : β → Bool) (f : β → Nat) :
    ∀ (L : List β), (∀ c ∈ L, q c = false → f c = 0) →
      (L.map f).sum = ((L.filter q).map f).sum := by
  intro L
  induction L with
  | nil => intro _; rfl
  | cons c rest ih =>
    intro h
    rw [List.map_cons, List.sum_cons, ih (fun x hx => h x (by simp [hx])), List.filter_cons]
    by_cases hc : q c
    · simp [hc]
    · rw [if_neg (by simp [hc])]
      rw [h c (by simp) (by simp [hc])]
      omega

/-- Per-opcode `+`-line count in the rendered output. -/
theorem countAdded_renderOpcode (a b : List (List Char)) (c : Opcode)
    (hb : ∀ l ∈ b, startsWithL ['+', '+'] l = false) (hj : c.j2 ≤ b.length) :
    (renderOpcode a b c).countP countsAsAdded
      = if c.tag = Tag.insert ∨ c.tag = Tag.replace then c.j2 - c.j1 else 0 := by
  have hzero_space : ∀ (sl : List (List Char)),
      (sl.map (fun line => ' ' :: line)).countP countsAsAdded = 0 := fun sl =>
    List.countP_eq_zero.mpr (fun x hx => by
      obtain ⟨y, -, rfl⟩ := List.mem_map.mp hx
      simp [countsAsAdded_space])
  have hzero_minus : ∀ (sl : List (List Char)),
      (sl.map (fun line => '-' :: line)).countP countsAsAdded = 0 := fun sl =>
    List.countP_eq_zero.mpr (fun x hx => by
      obtain ⟨y, -, rfl⟩ := List.mem_map.mp hx
      simp [countsAsAdded_minus])
  obtain ⟨tg, i1, i2, j1, j2⟩ := c
  have hplus : ((pySlice b j1 j2).map (fun line => '+' :: line)).countP countsAsAdded
      = j2 - j1 := by
    rw [List.countP_eq_length.mpr, List.length_map]
    · exact pySlice_length hj
    · intro x hx
      obtain ⟨y, hy, rfl⟩ := List.mem_map.mp hx
      rw [countsAsAdded_plus, hb y (pySlice_subset b j1 j2 hy), Bool.not_false]
  cases tg with
  | equal =>
    show (((pySlice a i1 i2).map (fun line => ' ' :: line) ++ []) ++ []).countP
        countsAsAdded = _
    rw [if_neg (by simp)]
    simp [List.countP_append, hzero_space]
  | replace =>
    show ((([] : List (List Char)) ++ (pySlice a i1 i2).map (fun line => '-' :: line))
        ++ (pySlice b j1 j2).map (fun line => '+' :: line)).countP countsAsAdded = _
    rw [if_pos (by simp)]
    simp [List.countP_append, hzero_minus, hplus]
  | delete =>
    show ((([] : List (List Char)) ++ (pySlice a i1 i2).map (fun line => '-' :: line))
        ++ []).countP countsAsAdded = _
    rw [if_neg (by simp)]
    simp [List.countP_append, hzero_minus]
  | insert =>
    show ((([] : List (List Char)) ++ [])
        ++ (pySlice b j1 j2).map (fun line => '+' :: line)).countP countsAsAdded = _
    rw [if_pos (by simp)]
    simp [hplus]

/-- Per-opcode `-`-line count in the rendered output. -/
theorem countRemoved_renderOpcode (a b : List (List Char)) (c : Opcode)
    (ha : ∀ l ∈ a, startsWithL ['-', '-'] l = false) (hi : c.i2 ≤ a.length) :
    (renderOpcode a b c).countP countsAsRemoved
      = if c.tag = Tag.delete ∨ c.tag = Tag.replace then c.i2 - c.i1 else 0 := by
  have hzero_space : ∀ (sl : List (List Char)),
      (sl.map (fun line => ' ' :: line)).countP countsAsRemoved = 0 := fun sl =>
    List.countP_eq_zero.mpr (fun x hx => by
      obtain ⟨y, -, rfl⟩ := List.mem_map.mp hx
      simp [countsAsRemoved_space])
  have hzero_plus : ∀ (sl : List (List Char)),
      (sl.map (fun line => '+' :: line)).countP countsAsRemoved = 0 := fun sl =>
    List.countP_eq_zero.mpr (fun x hx => by
      obtain ⟨y, -, rfl⟩ := List.mem_map.mp hx
      simp [countsAsRemoved_plus])
  obtain ⟨tg, i1, i2, j1, j2⟩ := c
  have hminus : ((pySlice a i1 i2).map (fun line => '-' :: line)).countP countsAsRemoved
      = i2 - i1 := by
    rw [List.countP_eq_length.mpr, List.length_map]
    · exact pySlice_length hi
    · intro x hx
      obtain ⟨y, hy, rfl⟩ := List.mem_map.mp hx
      rw [countsAsRemoved_minus, ha y (pySlice_subset a i1 i2 hy), Bool.not_false]
  cases tg with
  | equal =>
    show (((pySlice a i1 i2).map (fun line => ' ' :: line) ++ []) ++ []).countP
        countsAsRemoved = _
    rw [if_neg (by simp)]
    simp [List.countP_append, hzero_space]
  | replace =>
    show ((([] : List (List Char)) ++ (pySlice a i1 i2).map (fun line => '-' :: line))
        ++ (pySlice b j1 j2).map (fun line => '+' :: line)).countP countsAsRemoved = _
    rw [if_pos (by simp)]
    simp [List.countP_append, hzero_plus, hminus]
  | delete =>
    show ((([] : List (List Char)) ++ (pySlice a i1 i2).map (fun line => '-' :: line))
        ++ []).countP countsAsRemoved = _
    rw [if_pos (by simp)]
    simp [List.countP_append, hminus]
  | insert =>
    show ((([] : List (List Char)) ++ [])
        ++ (pySlice b j1 j2).map (fun line => '+' :: line)).countP countsAsRemoved = _
    rw [if_neg (by simp)]
    simp [hzero_plus]

theorem countAdded_hunk (l : List Char) : countsAsAdded ('@' :: l) = false := rfl

theorem countRemoved_hunk (l : List Char) : countsAsRemoved ('@' :: l) = false := rfl

theorem countAdded_renderOpcode_equal (a b : List (List Char)) (c : Opcode)
    (hc : c.tag = Tag.equal) :
    (renderOpcode a b c).countP countsAsAdded = 0 := by
  unfold renderOpcode
  rw [if_pos hc, if_neg (by simp [hc]), if_neg (by simp [hc])]
  rw [List.append_nil, List.append_nil]
  exact List.countP_eq_zero.mpr (fun x hx => by
    obtain ⟨y, -, rfl⟩ := List.mem_map.mp hx
    simp [countsAsAdded_space])

theorem countRemoved_renderOpcode_equal (a b : List (List Char)) (c : Opcode)
    (hc : c.tag = Tag.equal) :
    (renderOpcode a b c).countP countsAsRemoved = 0 := by
  unfold renderOpcode
  rw [if_pos hc, if_neg (by simp [hc]), if_neg (by simp [hc])]
  rw [List.append_nil, List.append_nil]
  exact List.countP_eq_zero.mpr (fun x hx => by
    obtain ⟨y, -, rfl⟩ := List.mem_map.mp hx
    simp [countsAsRemoved_space])

/-- The `+`/`-`-count of one rendered group is the sum of its member
opcodes' counts: the hunk header (which starts with `@`) never counts. -/
theorem countP_renderGroup (a b : List (List Char)) (p : List Char → Bool)
    (hp : ∀ l, p ('@' :: l) = false) (g : List Opcode) :
    (renderGroup a b g).countP p
      = (g.map (fun c => (renderOpcode a b c).countP p)).sum := by
  cases g with
  | nil => rfl
  | cons first rest =>
    show (('@' :: '@' :: ' ' :: '-' ::
        (formatRangeUnified first.i1 ((first :: rest).getLastD first).i2
          ++ ' ' :: '+' :: formatRangeUnified first.j1 ((first :: rest).getLastD first).j2
          ++ [' ', '@', '@']))
      :: ((first :: rest).map (renderOpcode a b)).flatten).countP p = _
    rw [List.countP_cons, hp]
    rw [countP_flatten, List.map_map]
    simp only [Bool.false_eq_true, if_false, Nat.add_zero]
    rfl

theorem unifiedDiff_nil (a b : List (List Char)) (ff tf : List Char)
    (hG : getGroupedOpcodes 3 a b = []) : unifiedDiff a b ff tf = [] := by
  unfold unifiedDiff
  rw [hG]

theorem unifiedDiff_cons (a b : List (List Char)) (ff tf : List Char) (g : List Opcode)
    (gs : List (List Opcode)) (hG : getGroupedOpcodes 3 a b = g :: gs) :
    unifiedDiff a b ff tf = ('-' :: '-' :: '-' :: ' ' :: ff)
      :: ('+' :: '+' :: '+' :: ' ' :: tf)
      :: ((getGroupedOpcodes 3 a b).map (renderGroup a b)).flatten := by
  unfold unifiedDiff
  rw [hG]

/-- The total `+`-count of the rendered output equals the sum over
insert/replace opcodes of the modernized range widths, provided no modernized
line begins with `++`. -/
theorem unifiedDiff_added (a b : List (List Char)) (ff tf : List Char)
    (hb : ∀ l ∈ b, startsWithL ['+', '+'] l = false) :
    (unifiedDiff a b ff tf).countP countsAsAdded = addedSpecCount a b := by
  have hkey : ((getGroupedOpcodes 3 a b).flatten.map
      (fun c => (renderOpcode a b c).countP countsAsAdded)).sum = addedSpecCount a b := by
    rw [sum_map_drop_zero (fun c => !decide (c.tag = Tag.equal)) _ _
      (fun c _ hq => countAdded_renderOpcode_equal a b c (by simpa using hq))]
    have hfil : (getGroupedOpcodes 3 a b).flatten.filter (fun c => !decide (c.tag = Tag.equal))
        = (getOpcodes a b).filter (fun c => !decide (c.tag = Tag.equal)) := by
      show ((groupLoop 3 []
          (trimLast 3 (trimHead 3 (if getOpcodes a b = [] then
            [Opcode.mk Tag.equal 0 1 0 1] else getOpcodes a b)))).flatten).filter _ = _
      rw [groupLoop_flatten_filter, filter_trimLast, filter_trimHead]
      split
      · rename_i hnil
        rw [hnil]
        rfl
      · rfl
    rw [hfil]
    have hcong : ((getOpcodes a b).filter (fun c => !decide (c.tag = Tag.equal))).map
        (fun c => (renderOpcode a b c).countP countsAsAdded)
        = ((getOpcodes a b).filter (fun c => !decide (c.tag = Tag.equal))).map
          (fun c => if c.tag = Tag.insert ∨ c.tag = Tag.replace then c.j2 - c.j1 else 0) := by
      refine List.map_congr_left (fun c hc => ?_)
      have hmem := List.mem_of_mem_filter hc
      have hbound := (opChain_mem_facts _ 0 0 (getOpcodes_chain a b) c hmem).2.2.2.2.2
      exact countAdded_renderOpcode a b c hb hbound
    rw [hcong, sum_map_ite, List.filter_filter]
    unfold addedSpecCount
    have hpred : ∀ c ∈ getOpcodes a b,
        (decide (c.tag = Tag.insert ∨ c.tag = Tag.replace) && !decide (c.tag = Tag.equal))
          = decide (c.tag = Tag.insert ∨ c.tag = Tag.replace) := by
      intro c _
      cases htag : c.tag <;> simp [htag]
    rw [List.filter_congr hpred]
  rcases hG : getGroupedOpcodes 3 a b with _ | ⟨g, gs⟩
  · rw [unifiedDiff_nil a b ff tf hG]
    rw [hG] at hkey
    simp only [List.flatten_nil, List.map_nil, List.sum_nil] at hkey
    rw [List.countP_nil]
    exact hkey
  · rw [unifiedDiff_cons a b ff tf g gs hG]
    rw [List.countP_cons, List.countP_cons]
    rw [show countsAsAdded ('-' :: '-' :: '-' :: ' ' :: ff) = false from rfl]
    rw [show countsAsAdded ('+' :: '+' :: '+' :: ' ' :: tf) = false from rfl]
    rw [countP_flatten, List.map_map]
    rw [show ((getGroupedOpcodes 3 a b).map
        ((fun l => l.countP countsAsAdded) ∘ renderGroup a b))
        = ((getGroupedOpcodes 3 a b).map
          (fun g => (g.map (fun c => (renderOpcode a b c).countP countsAsAdded)).sum))
      from List.map_congr_left (fun g _ => countP_renderGroup a b countsAsAdded countAdded_hunk g)]
    rw [← sum_map_flatten]
    simp only [Bool.false_eq_true, if_false, Nat.zero_add, Nat.add_zero]
    exact hkey

/-- The total `-`-count analogue of `unifiedDiff_added`. -/
theorem unifiedDiff_removed (a b : List (List Char)) (ff tf : List Char)
    (ha : ∀ l ∈ a, startsWithL ['-', '-'] l = false) :
    (unifiedDiff a b ff tf).countP countsAsRemoved = removedSpecCount a b := by
  have hkey : ((getGroupedOpcodes 3 a b).flatten.map
      (fun c => (renderOpcode a b c).countP countsAsRemoved)).sum = removedSpecCount a b := by
    rw [sum_map_drop_zero (fun c => !decide (c.tag = Tag.equal)) _ _
      (fun c _ hq => countRemoved_renderOpcode_equal a b c (by simpa using hq))]
    have hfil : (getGroupedOpcodes 3 a b).flatten.filter (fun c => !decide (c.tag = Tag.equal))
        = (getOpcodes a b).filter (fun c => !decide (c.tag = Tag.equal)) := by
      show ((groupLoop 3 []
          (trimLast 3 (trimHead 3 (if getOpcodes a b = [] then
            [Opcode.mk Tag.equal 0 1 0 1] else getOpcodes a b)))).flatten).filter _ = _
      rw [groupLoop_flatten_filter, filter_trimLast, filter_trimHead]
      split
      · rename_i hnil
        rw [hnil]
        rfl
      · rfl
    rw [hfil]
    have hcong : ((getOpcodes a b).filter (fun c => !decide (c.tag = Tag.equal))).map
        (fun c => (renderOpcode a b c).countP countsAsRemoved)
        = ((getOpcodes a b).filter (fun c => !decide (c.tag = Tag.equal))).map
          (fun c => if c.tag = Tag.delete ∨ c.tag = Tag.replace then c.i2 - c.i1 else 0) := by
      refine List.map_congr_left (fun c hc => ?_)
      have hmem := List.mem_of_mem_filter hc
      have hbound := (opChain_mem_facts _ 0 0 (getOpcodes_chain a b) c hmem).2.2.2.2.1
      exact countRemoved_renderOpcode a b c ha hbound
    rw [hcong, sum_map_ite, List.filter_filter]
    unfold removedSpecCount
    have hpred : ∀ c ∈ getOpcodes a b,
        (decide (c.tag = Tag.delete ∨ c.tag = Tag.replace) && !decide (c.tag = Tag.equal))
          = decide (c.tag = Tag.delete ∨ c.tag = Tag.replace) := by
      intro c _
      cases htag : c.tag <;> simp [htag]
    rw [List.filter_congr hpred]
  rcases hG : getGroupedOpcodes 3 a b with _ | ⟨g, gs⟩
  · rw [unifiedDiff_nil a b ff tf hG]
    rw [hG] at hkey
    simp only [List.flatten_nil, List.map_nil, List.sum_nil] at hkey
    rw [List.countP_nil]
    exact hkey
  · rw [unifiedDiff_cons a b ff tf g gs hG]
    rw [List.countP_cons, List.countP_cons]
    rw [show countsAsRemoved ('-' :: '-' :: '-' :: ' ' :: ff) = false from rfl]
    rw [show countsAsRemoved ('+' :: '+' :: '+' :: ' ' :: tf) = false from rfl]
    rw [countP_flatten, List.map_map]
    rw [show ((getGroupedOpcodes 3 a b).map
        ((fun l => l.countP countsAsRemoved) ∘ renderGroup a b))
        = ((getGroupedOpcodes 3 a b).map
          (fun g => (g.map (fun c => (renderOpcode a b c).countP countsAsRemoved)).sum))
      from List.map_congr_left
        (fun g _ => countP_renderGroup a b countsAsRemoved countRemoved_hunk g)]
    rw [← sum_map_flatten]
    simp only [Bool.false_eq_true, if_false, Nat.zero_add, Nat.add_zero]
    exact hkey

/-- C2 counterexample: for original `""` and modernized `"++x\n"` the one
inserted line renders as `+++x` followed by a newline in the unified diff, and
the `startswith('+++')` exclusion (meant for the `+++ modernized/...` header)
then discards it, so `added_lines` is 0 even though exactly one line is present
only in the modernized text across the insert/replace opcodes. -/
theorem C2_plus_prefix_counterexample :
    (generateFileDiff [] ("++x\n").toList ("f.java").toList).added_lines = 0 ∧
    addedSpecCount (splitlines []) (splitlines ("++x\n").toList) = 1 := by
  decide

/-- C2: `changed_lines = added_lines + removed_lines` holds unconditionally;
and provided no modernized line begins with `++` and no original line begins
with `--`, `added_lines` equals the number of lines present only in the
modernized text across insert/replace opcodes and `removed_lines` the number of
lines present only in the original across delete/replace opcodes.  The proviso
is necessary: the `startswith('+++')` / `startswith('---')` exclusions, aimed
at the two file-header lines, also discard content lines whose own text begins
with `++` or `--` once the diff marker is prepended. -/
theorem C2_line_counts (orig modern fn : List Char)
    (hb : ∀ l ∈ splitlines modern, startsWithL ['+', '+'] l = false)
    (ha : ∀ l ∈ splitlines orig, startsWithL ['-', '-'] l = false) :
    (generateFileDiff orig modern fn).added_lines
        = addedSpecCount (splitlines orig) (splitlines modern)
    ∧ (generateFileDiff orig modern fn).removed_lines
        = removedSpecCount (splitlines orig) (splitlines modern)
    ∧ (generateFileDiff orig modern fn).changed_lines
        = (generateFileDiff orig modern fn).added_lines
          + (generateFileDiff orig modern fn).removed_lines := by
  delta generateFileDiff
  dsimp only
  refine ⟨?_, ?_, rfl⟩
  · exact unifiedDiff_added (splitlines orig) (splitlines modern)
      (("original/").toList ++ fn) (("modernized/").toList ++ fn) hb
  · exact unifiedDiff_removed (splitlines orig) (splitlines modern)
      (("original/").toList ++ fn) (("modernized/").toList ++ fn) ha

theorem C2_line_counts_witness :
    (generateFileDiff ("a\n").toList ("b\n").toList ("f.java").toList).added_lines
        = addedSpecCount (splitlines ("a\n").toList) (splitlines ("b\n").toList)
    ∧ (generateFileDiff ("a\n").toList ("b\n").toList ("f.java").toList).removed_lines
        = removedSpecCount (splitlines ("a\n").toList) (splitlines ("b\n").toList)
    ∧ (generateFileDiff ("a\n").toList ("b\n").toList ("f.java").toList).changed_lines
        = (generateFileDiff ("a\n").toList ("b\n").toList ("f.java").toList).added_lines
          + (generateFileDiff ("a\n").toList ("b\n").toList ("f.java").toList).removed_lines :=
  C2_line_counts ("a\n").toList ("b\n").toList ("f.java").toList
    (by decide) (by decide)

/-! ### C4: identity comparison

`find_longest_match` on `a` vs `a` over the full box returns the whole
diagonal `(0, 0, len a)`.  The DP loop's running best always lies on the
diagonal: `chainC a i j` reconstructs the `newj2len[j]` value of row `i`, and
any off-diagonal chain is dominated by the diagonal chain through
`min i j` (`chainC_le_diag`), which the loop has already seen.  The two
extension loops then stretch a diagonal best to the full diagonal. -/

theorem chainC_eq (a : List α) (i j : Nat) :
    chainC a i j
      = if j ∈ jsFor a a 0 a.length i then prevLen (chainPre a i) j + 1 else 0 := by
  cases i with
  | zero => cases j <;> rfl
  | succ i2 => rfl

theorem mem_occ {b : List α} {x : α} {j : Nat} : j ∈ occ b x ↔ b[j]? = some x := by
  unfold occ
  rw [List.mem_filter, List.mem_range]
  constructor
  · rintro ⟨-, h⟩
    exact of_decide_eq_true h
  · intro h
    have hj : j < b.length := by
      by_contra hge
      rw [List.getElem?_eq_none (by omega)] at h
      simp at h
    exact ⟨hj, decide_eq_true h⟩

theorem mem_b2j {b : List α} {x : α} {j : Nat} (h : j ∈ b2j b x) :
    b2j b x = occ b x ∧ j ∈ occ b x := by
  have hb : b2j b x
      = if 200 ≤ b.length ∧ b.length / 100 + 1 < (occ b x).length then []
        else occ b x := rfl
  rw [hb] at h ⊢
  split at h
  · exact absurd h (List.not_mem_nil j)
  · rename_i hc
    rw [if_neg hc]
    exact ⟨rfl, h⟩

/-- A hit `(i, j)` of the identity inner loop yields the two diagonal hits
`(i, i)` and `(j, j)`: the shared element is non-popular and occurs at both
indices. -/
theorem mem_jsFor_self {a : List α} {i j : Nat} (h : j ∈ jsFor a a 0 a.length i) :
    i ∈ jsFor a a 0 a.length i ∧ j ∈ jsFor a a 0 a.length j := by
  unfold jsFor at h ⊢
  rcases ha : a[i]? with _ | x
  · rw [ha] at h
    simp at h
  · rw [ha] at h
    replace h : j ∈ (b2j a x).filter (fun j => decide (0 ≤ j) && decide (j < a.length)) := h
    obtain ⟨hjb, hpred⟩ := List.mem_filter.mp h
    have hjlt : j < a.length := by
      simp only [Bool.and_eq_true, decide_eq_true_eq] at hpred
      exact hpred.2
    obtain ⟨hbeq, hjocc⟩ := mem_b2j hjb
    have hjx : a[j]? = some x := mem_occ.mp hjocc
    have hilt : i < a.length := by
      by_contra hge
      rw [List.getElem?_eq_none (by omega)] at ha
      simp at ha
    constructor
    · show i ∈ (b2j a x).filter (fun j => decide (0 ≤ j) && decide (j < a.length))
      rw [hbeq, List.mem_filter]
      exact ⟨mem_occ.mpr ha, by simp [hilt]⟩
    · rw [hjx]
      show j ∈ (b2j a x).filter (fun j => decide (0 ≤ j) && decide (j < a.length))
      rw [hbeq, List.mem_filter]
      exact ⟨hjocc, by simp [hjlt]⟩

theorem jsFor_sorted (a b : List α) (blo bhi i : Nat) :
    (jsFor a b blo bhi i).Pairwise (· < ·) := by
  unfold jsFor
  rcases ha : a[i]? with _ | x
  · exact List.Pairwise.nil
  · have hocc : (occ b x).Pairwise (· < ·) :=
      List.Pairwise.sublist (List.filter_sublist _) (List.pairwise_lt_range _)
    have hb2 : (b2j b x).Pairwise (· < ·) := by
      have hb : b2j b x
          = if 200 ≤ b.length ∧ b.length / 100 + 1 < (occ b x).length then []
            else occ b x := rfl
      rw [hb]
      split
      · exact List.Pairwise.nil
      · exact hocc
    exact List.Pairwise.sublist (List.filter_sublist _) hb2

/-- Diagonal dominance: on the identity comparison, every chain ending at
`(i, j)` is at most as long as the diagonal chain ending at
`(min i j, min i j)`. -/
theorem chainC_le_diag (a : List α) :
    ∀ (j i : Nat), chainC a i j ≤ chainC a (min i j) (min i j) := by
  intro j
  induction j with
  | zero =>
    intro i
    rw [Nat.min_zero, chainC_eq a i 0]
    split
    · rename_i hvis
      have hself := (mem_jsFor_self hvis).2
      rw [chainC_eq a 0 0, if_pos hself]
      exact le_rfl
    · exact Nat.zero_le _
  | succ j2 ihj =>
    intro i
    cases i with
    | zero =>
      rw [Nat.zero_min, chainC_eq a 0 (j2 + 1)]
      split
      · rename_i hvis
        have hself := (mem_jsFor_self hvis).1
        rw [chainC_eq a 0 0, if_pos hself]
        exact le_rfl
      · exact Nat.zero_le _
    | succ i2 =>
      rw [chainC_eq a (i2 + 1) (j2 + 1)]
      split
      · rename_i hvis
        have hL : prevLen (chainPre a (i2 + 1)) (j2 + 1) = chainC a i2 j2 := rfl
        rw [hL, Nat.succ_min_succ]
        have hdv : (min i2 j2 + 1) ∈ jsFor a a 0 a.length (min i2 j2 + 1) := by
          rcases le_total i2 j2 with hle | hle
          · rw [Nat.min_eq_left hle]
            exact (mem_jsFor_self hvis).1
          · rw [Nat.min_eq_right hle]
            exact (mem_jsFor_self hvis).2
        rw [chainC_eq a (min i2 j2 + 1) (min i2 j2 + 1), if_pos hdv]
        have hR : prevLen (chainPre a (min i2 j2 + 1)) (min i2 j2 + 1)
            = chainC a (min i2 j2) (min i2 j2) := rfl
        rw [hR]
        exact Nat.succ_le_succ (ihj i2)
      · exact Nat.zero_le _

/-- The first component of a row fold: `newj2len[x]` is set to
`j2len.get(x-1, 0) + 1` exactly at the visited columns. -/
theorem dpRowFold_fst (g : Nat → Nat) (r : Nat) :
    ∀ (S : List Nat) (f0 : Nat → Nat) (b0 : MatchB) (x : Nat),
      (S.foldl (dpRowStep g r) (f0, b0)).1 x
        = if x ∈ S then prevLen g x + 1 else f0 x := by
  intro S
  induction S with
  | nil =>
    intro f0 b0 x
    rw [List.foldl_nil, if_neg (List.not_mem_nil x)]
  | cons j tl ih =>
    intro f0 b0 x
    rw [List.foldl_cons]
    have hstep : dpRowStep g r (f0, b0) j
        = ((fun y => if y = j then prevLen g j + 1 else f0 y),
           if b0.size < prevLen g j + 1 then
             MatchB.mk (r + 1 - (prevLen g j + 1)) (j + 1 - (prevLen g j + 1))
               (prevLen g j + 1)
           else b0) := rfl
    rw [hstep, ih]
    by_cases hx : x ∈ tl
    · rw [if_pos hx, if_pos (List.mem_cons_of_mem j hx)]
    · rw [if_neg hx]
      by_cases hxj : x = j
      · rw [if_pos hxj, if_pos (by rw [hxj]; exact List.mem_cons_self j tl), hxj]
      · rw [if_neg hxj, if_neg (by
          intro hmem
          rcases List.mem_cons.mp hmem with h1 | h1
          · exact hxj h1
          · exact hx h1)]

/-- The best tracked by a row fold of the identity DP stays on the diagonal
and dominates every diagonal chain up to the current row. -/
theorem dpRowDiag (a : List α) (r : Nat) (g : Nat → Nat)
    (hg : ∀ x, g x = chainPre a r x) :
    ∀ (S : List Nat) (f0 : Nat → Nat) (b0 : MatchB),
      S.Pairwise (· < ·) →
      (∀ j ∈ S, j ∈ jsFor a a 0 a.length r) →
      (r ∈ S ∨ chainC a r r ≤ b0.size) →
      b0.a = b0.b →
      (∀ r2 < r, chainC a r2 r2 ≤ b0.size) →
      ((S.foldl (dpRowStep g r) (f0, b0)).2.a = (S.foldl (dpRowStep g r) (f0, b0)).2.b
        ∧ chainC a r r ≤ (S.foldl (dpRowStep g r) (f0, b0)).2.size
        ∧ ∀ r2 < r, chainC a r2 r2 ≤ (S.foldl (dpRowStep g r) (f0, b0)).2.size) := by
  intro S
  induction S with
  | nil =>
    intro f0 b0 _ _ hr hdiag hprev
    rcases hr with h | h
    · exact absurd h (List.not_mem_nil r)
    · exact ⟨hdiag, h, hprev⟩
  | cons j tl ih =>
    intro f0 b0 hsort hmem hr hdiag hprev
    rw [List.foldl_cons]
    have hj : j ∈ jsFor a a 0 a.length r := hmem j (List.mem_cons_self j tl)
    have hk : prevLen g j + 1 = chainC a r j := by
      rw [chainC_eq a r j, if_pos hj]
      congr 1
      cases j with
      | zero => rfl
      | succ j2 => exact hg j2
    have hstep : dpRowStep g r (f0, b0) j
        = ((fun y => if y = j then prevLen g j + 1 else f0 y),
           if b0.size < prevLen g j + 1 then
             MatchB.mk (r + 1 - (prevLen g j + 1)) (j + 1 - (prevLen g j + 1))
               (prevLen g j + 1)
           else b0) := rfl
    rw [hstep]
    by_cases hup : b0.size < prevLen g j + 1
    · rw [if_pos hup]
      have hjr : j = r := by
        by_contra hne
        rcases Nat.lt_or_ge j r with hlt | hge
        · have h1 := chainC_le_diag a j r
          rw [Nat.min_eq_right (le_of_lt hlt)] at h1
          have h2 := hprev j hlt
          omega
        · have hgt : r < j := by omega
          have hrtl : r ∉ tl := by
            intro hmem2
            have := List.rel_of_pairwise_cons hsort hmem2
            omega
          have hrr : chainC a r r ≤ b0.size := by
            rcases hr with h | h
            · rcases List.mem_cons.mp h with h1 | h1
              · omega
              · exact absurd h1 hrtl
            · exact h
          have h1 := chainC_le_diag a j r
          rw [Nat.min_eq_left (le_of_lt hgt)] at h1
          omega
      subst hjr
      refine ih _ _ (List.Pairwise.of_cons hsort)
        (fun x hx => hmem x (List.mem_cons_of_mem _ hx)) ?_ rfl ?_
      · right
        show chainC a j j ≤ prevLen g j + 1
        omega
      · intro r2 hr2
        show chainC a r2 r2 ≤ prevLen g j + 1
        have := hprev r2 hr2
        omega
    · rw [if_neg hup]
      refine ih _ _ (List.Pairwise.of_cons hsort)
        (fun x hx => hmem x (List.mem_cons_of_mem _ hx)) ?_ hdiag hprev
      rcases hr with h | h
      · rcases List.mem_cons.mp h with h1 | h1
        · right
          subst h1
          omega
        · exact Or.inl h1
      · exact Or.inr h

/-- Rows of the identity DP loop keep the best on the diagonal. -/
theorem dpLoopDiagAux (a : List α) :
    ∀ (m r0 : Nat) (f : Nat → Nat) (b : MatchB),
      (∀ x, f x = chainPre a r0 x) → b.a = b.b →
      (∀ r2 < r0, chainC a r2 r2 ≤ b.size) →
      (((List.range' r0 m).foldl
          (fun st i => dpRow st.1 i (jsFor a a 0 a.length i) st.2) (f, b)).2.a
        = ((List.range' r0 m).foldl
          (fun st i => dpRow st.1 i (jsFor a a 0 a.length i) st.2) (f, b)).2.b) := by
  intro m
  induction m with
  | zero =>
    intro r0 f b _ hd _
    exact hd
  | succ m2 ih =>
    intro r0 f b hf hd hprev
    rw [List.range'_succ, List.foldl_cons]
    have hdp : dpRow f r0 (jsFor a a 0 a.length r0) b
        = (jsFor a a 0 a.length r0).foldl (dpRowStep f r0) ((fun _ => 0), b) := rfl
    have hr : r0 ∈ jsFor a a 0 a.length r0 ∨ chainC a r0 r0 ≤ b.size := by
      by_cases hr0 : r0 ∈ jsFor a a 0 a.length r0
      · exact Or.inl hr0
      · right
        rw [chainC_eq a r0 r0, if_neg hr0]
        exact Nat.zero_le _
    have hG := dpRowDiag a r0 f hf (jsFor a a 0 a.length r0) (fun _ => 0) b
      (jsFor_sorted a a 0 a.length r0) (fun _ hj => hj) hr hd hprev
    have hF : ∀ x, ((jsFor a a 0 a.length r0).foldl (dpRowStep f r0) ((fun _ => 0), b)).1 x
        = chainPre a (r0 + 1) x := by
      intro x
      rw [dpRowFold_fst]
      show _ = chainC a r0 x
      rw [chainC_eq a r0 x]
      split
      · congr 1
        cases x with
        | zero => rfl
        | succ x2 => exact hf x2
      · rfl
    rw [hdp]
    refine ih (r0 + 1) _ _ hF hG.1 ?_
    intro r2 hr2
    rcases Nat.lt_succ_iff_lt_or_eq.mp hr2 with h2 | h2
    · exact hG.2.2 r2 h2
    · rw [h2]
      exact hG.2.1

/-- The DP phase of the identity comparison returns a diagonal best. -/
theorem dpLoop_identity_diag (a : List α) :
    (dpLoop a a 0 a.length 0 a.length).a = (dpLoop a a 0 a.length 0 a.length).b := by
  unfold dpLoop
  rw [Nat.sub_zero]
  exact dpLoopDiagAux a a.length 0 (fun _ => 0) (MatchB.mk 0 0 0)
    (fun _ => rfl) rfl (fun r2 h => absurd h (Nat.not_lt_zero r2))

theorem elemEq_self (a : List α) {d : Nat} (hd : d < a.length) :
    elemEq a a d d = true := by
  unfold elemEq
  rw [List.getElem?_eq_getElem hd]
  simp

/-- The left extension loop of the identity comparison drags a diagonal best
back to the origin. -/
theorem extendLeft_diag (a : List α) :
    ∀ (d s : Nat), d + s ≤ a.length →
      extendLeft a a 0 0 d d s = MatchB.mk 0 0 (s + d) := by
  intro d
  induction d with
  | zero =>
    intro s _
    rfl
  | succ d2 ihd =>
    intro s hs
    have hunf : extendLeft a a 0 0 (d2 + 1) (d2 + 1) s =
        if 0 ≤ d2 ∧ 0 < d2 + 1 ∧ elemEq a a d2 ((d2 + 1) - 1) = true then
          extendLeft a a 0 0 d2 ((d2 + 1) - 1) (s + 1)
        else MatchB.mk (d2 + 1) (d2 + 1) s := rfl
    rw [hunf, if_pos ⟨Nat.zero_le _, Nat.succ_pos _,
      (by exact elemEq_self a (by omega) : elemEq a a d2 ((d2 + 1) - 1) = true)⟩]
    rw [(by exact ihd (s + 1) (by omega) :
      extendLeft a a 0 0 d2 ((d2 + 1) - 1) (s + 1) = MatchB.mk 0 0 ((s + 1) + d2))]
    congr 1
    omega

/-- The right extension loop of the identity comparison pushes a diagonal
match at the origin out to the full length. -/
theorem extendRightAux_diag (a : List α) :
    ∀ (f s : Nat), f = a.length - s → s ≤ a.length →
      extendRightAux a a a.length 0 0 f s = a.length := by
  intro f
  induction f with
  | zero =>
    intro s h1 h2
    have hs : s = a.length := by omega
    subst hs
    rfl
  | succ f2 ihf =>
    intro s h1 h2
    have hslt : s < a.length := by omega
    have hunf : extendRightAux a a a.length 0 0 (f2 + 1) s =
        if 0 + s < a.length ∧ elemEq a a (0 + s) (0 + s) = true then
          extendRightAux a a a.length 0 0 f2 (s + 1)
        else s := rfl
    rw [hunf, if_pos ⟨by omega, elemEq_self a (by omega)⟩]
    exact ihf (s + 1) (by omega) (by omega)

/-- `find_longest_match` on identical sequences over the full box returns the
whole diagonal. -/
theorem findLongestMatch_identity (a : List α) :
    findLongestMatch a a 0 a.length 0 a.length = MatchB.mk 0 0 a.length := by
  have hdiag := dpLoop_identity_diag a
  have hbounds := dpLoop_bounds a a 0 a.length 0 a.length
  set m0 := dpLoop a a 0 a.length 0 a.length with hm0
  have hds : m0.a + m0.size ≤ a.length := by
    rcases hbounds with h | h
    · rw [h]
      exact Nat.zero_le _
    · exact h.2.2.1
  have hel : extendLeft a a 0 0 m0.a m0.b m0.size = MatchB.mk 0 0 (m0.size + m0.a) := by
    rw [← hdiag]
    exact extendLeft_diag a m0.a m0.size (by omega)
  have hfl : findLongestMatch a a 0 a.length 0 a.length
      = MatchB.mk (extendLeft a a 0 0 m0.a m0.b m0.size).a
          (extendLeft a a 0 0 m0.a m0.b m0.size).b
          (extendRight a a a.length a.length
            (extendLeft a a 0 0 m0.a m0.b m0.size).a
            (extendLeft a a 0 0 m0.a m0.b m0.size).b
            (extendLeft a a 0 0 m0.a m0.b m0.size).size) := rfl
  rw [hfl, hel]
  have her : extendRight a a a.length a.length 0 0 (m0.size + m0.a) = a.length := by
    rw [(rfl : extendRight a a a.length a.length 0 0 (m0.size + m0.a)
      = extendRightAux a a a.length 0 0 (a.length - (0 + (m0.size + m0.a)))
          (m0.size + m0.a))]
    exact extendRightAux_diag a _ _ (by omega) (by omega)
  rw [her]

theorem getMatchingBlocks_identity_pos (a : List α) (hn : a.length ≠ 0) :
    getMatchingBlocks a a = [MatchB.mk 0 0 a.length, MatchB.mk a.length a.length 0] := by
  unfold getMatchingBlocks
  rw [show matchingBlocksAux a a (a.length + a.length + 1) 0 a.length 0 a.length
      = (if (findLongestMatch a a 0 a.length 0 a.length).size = 0 then ([] : List MatchB)
        else (if 0 < (findLongestMatch a a 0 a.length 0 a.length).a ∧
            0 < (findLongestMatch a a 0 a.length 0 a.length).b then
          matchingBlocksAux a a (a.length + a.length) 0
            (findLongestMatch a a 0 a.length 0 a.length).a 0
            (findLongestMatch a a 0 a.length 0 a.length).b else [])
        ++ findLongestMatch a a 0 a.length 0 a.length ::
        (if (findLongestMatch a a 0 a.length 0 a.length).a
              + (findLongestMatch a a 0 a.length 0 a.length).size < a.length ∧
            (findLongestMatch a a 0 a.length 0 a.length).b
              + (findLongestMatch a a 0 a.length 0 a.length).size < a.length then
          matchingBlocksAux a a (a.length + a.length)
            ((findLongestMatch a a 0 a.length 0 a.length).a
              + (findLongestMatch a a 0 a.length 0 a.length).size) a.length
            ((findLongestMatch a a 0 a.length 0 a.length).b
              + (findLongestMatch a a 0 a.length 0 a.length).size) a.length else []))
    from rfl]
  rw [findLongestMatch_identity a]
  rw [if_neg (by simpa using hn : ¬(MatchB.mk 0 0 a.length).size = 0)]
  rw [if_neg (by simp : ¬((0:Nat) < (MatchB.mk 0 0 a.length).a
    ∧ (0:Nat) < (MatchB.mk 0 0 a.length).b))]
  rw [if_neg (by simp : ¬((MatchB.mk 0 0 a.length).a + (MatchB.mk 0 0 a.length).size
      < a.length
    ∧ (MatchB.mk 0 0 a.length).b + (MatchB.mk 0 0 a.length).size < a.length))]
  rw [show collapseLoop 0 0 0 ([] ++ MatchB.mk 0 0 a.length :: [])
      = collapseLoop 0 0 (0 + a.length) [] from by
    rw [List.nil_append]
    show (if 0 + 0 = (MatchB.mk 0 0 a.length).a ∧ 0 + 0 = (MatchB.mk 0 0 a.length).b then
        collapseLoop 0 0 (0 + (MatchB.mk 0 0 a.length).size) []
      else (if (0:Nat) ≠ 0 then [MatchB.mk 0 0 0] else [])
        ++ collapseLoop (MatchB.mk 0 0 a.length).a (MatchB.mk 0 0 a.length).b
            (MatchB.mk 0 0 a.length).size []) = _
    rw [if_pos ⟨rfl, rfl⟩]]
  rw [show collapseLoop 0 0 (0 + a.length) []
      = if 0 + a.length ≠ 0 then [MatchB.mk 0 0 (0 + a.length)] else [] from rfl]
  rw [if_pos (by omega : 0 + a.length ≠ 0), Nat.zero_add]
  rfl

theorem getMatchingBlocks_identity_zero (a : List α) (hn : a.length = 0) :
    getMatchingBlocks a a = [MatchB.mk a.length a.length 0] := by
  obtain rfl : a = [] := List.length_eq_zero.mp hn
  rfl

theorem matchesTotal_identity (a : List α) : matchesTotal a a = a.length := by
  by_cases hn : a.length = 0
  · obtain rfl : a = [] := List.length_eq_zero.mp hn
    rfl
  · unfold matchesTotal
    rw [getMatchingBlocks_identity_pos a hn]
    simp

theorem ratioQ_identity (a : List α) : ratioQ a a = 1 := by
  unfold ratioQ
  rw [matchesTotal_identity]
  split
  · rename_i h
    have hpos : (0 : ℚ) < (a.length : ℚ) + (a.length : ℚ) := by
      have h2 : a.length ≠ 0 := by omega
      have h3 : (0 : ℚ) < (a.length : ℚ) := by exact_mod_cast Nat.pos_of_ne_zero h2
      linarith
    field_simp
    ring
  · rfl

theorem getOpcodes_identity_pos (a : List α) (hn : a.length ≠ 0) :
    getOpcodes a a = [Opcode.mk Tag.equal 0 a.length 0 a.length] := by
  unfold getOpcodes
  rw [getMatchingBlocks_identity_pos a hn]
  simp [opcodesLoop, hn]

theorem extractChangedSections_identity (L : List (List Char)) :
    extractChangedSections L L = [] := by
  by_cases hn : L.length = 0
  · obtain rfl : L = [] := List.length_eq_zero.mp hn
    rfl
  · unfold extractChangedSections
    rw [getOpcodes_identity_pos L hn]
    rfl

theorem getGroupedOpcodes_identity (a : List α) : getGroupedOpcodes 3 a a = [] := by
  by_cases hn : a.length = 0
  · obtain rfl : a = [] := List.length_eq_zero.mp hn
    rfl
  · show groupLoop 3 []
      (trimLast 3 (trimHead 3 (if getOpcodes a a = [] then
        [Opcode.mk Tag.equal 0 1 0 1] else getOpcodes a a))) = []
    rw [getOpcodes_identity_pos a hn]
    rw [if_neg (by simp : ¬([Opcode.mk Tag.equal 0 a.length 0 a.length]
      = ([] : List Opcode)))]
    rw [show trimHead 3 [Opcode.mk Tag.equal 0 a.length 0 a.length]
        = [Opcode.mk Tag.equal (max 0 (a.length - 3)) a.length
            (max 0 (a.length - 3)) a.length] from rfl]
    rw [show trimLast 3 [Opcode.mk Tag.equal (max 0 (a.length - 3)) a.length
          (max 0 (a.length - 3)) a.length]
        = [Opcode.mk Tag.equal (max 0 (a.length - 3))
            (min a.length (max 0 (a.length - 3) + 3)) (max 0 (a.length - 3))
            (min a.length (max 0 (a.length - 3) + 3))] from rfl]
    rw [show groupLoop 3 [] [Opcode.mk Tag.equal (max 0 (a.length - 3))
          (min a.length (max 0 (a.length - 3) + 3)) (max 0 (a.length - 3))
          (min a.length (max 0 (a.length - 3) + 3))]
        = if (Opcode.mk Tag.equal (max 0 (a.length - 3))
              (min a.length (max 0 (a.length - 3) + 3)) (max 0 (a.length - 3))
              (min a.length (max 0 (a.length - 3) + 3))).tag = Tag.equal
            ∧ 3 + 3 < (Opcode.mk Tag.equal (max 0 (a.length - 3))
              (min a.length (max 0 (a.length - 3) + 3)) (max 0 (a.length - 3))
              (min a.length (max 0 (a.length - 3) + 3))).i2
              - (Opcode.mk Tag.equal (max 0 (a.length - 3))
                (min a.length (max 0 (a.length - 3) + 3)) (max 0 (a.length - 3))
                (min a.length (max 0 (a.length - 3) + 3))).i1 then
            ([] ++ [Opcode.mk Tag.equal (max 0 (a.length - 3))
                (min (min a.length (max 0 (a.length - 3) + 3)) (max 0 (a.length - 3) + 3))
                (max 0 (a.length - 3))
                (min (min a.length (max 0 (a.length - 3) + 3)) (max 0 (a.length - 3) + 3))])
              :: groupLoop 3 [Opcode.mk Tag.equal
                  (max (max 0 (a.length - 3)) ((min a.length (max 0 (a.length - 3) + 3)) - 3))
                  (min a.length (max 0 (a.length - 3) + 3))
                  (max (max 0 (a.length - 3)) ((min a.length (max 0 (a.length - 3) + 3)) - 3))
                  (min a.length (max 0 (a.length - 3) + 3))] []
          else groupLoop 3 ([] ++ [Opcode.mk Tag.equal (max 0 (a.length - 3))
              (min a.length (max 0 (a.length - 3) + 3)) (max 0 (a.length - 3))
              (min a.length (max 0 (a.length - 3) + 3))]) []
      from rfl]
    rw [if_neg (by
      rintro ⟨-, h⟩
      dsimp only at h
      omega)]
    rfl

theorem unifiedDiff_identity (a : List (List Char)) (ff tf : List Char) :
    unifiedDiff a a ff tf = [] :=
  unifiedDiff_nil a a ff tf (getGroupedOpcodes_identity a)

/-- C4: the identity comparison `compare(T, T, id)` yields `changed_lines = 0`,
`diff_ratio = 100.0` and an empty `changed_sections` list, for every text `T`:
the matcher finds the full diagonal, so the only opcode is `equal` (or the
opcode list is empty), section extraction emits nothing, the unified diff is
empty, and the character-level ratio is `round(2n/2n * 100, 2) = 100`. -/
theorem C4_identity (T fn : List Char) :
    (generateFileDiff T T fn).changed_lines = 0 ∧
    (generateFileDiff T T fn).diff_ratio = 100 ∧
    (generateFileDiff T T fn).changed_sections = [] := by
  delta generateFileDiff
  dsimp only
  refine ⟨?_, ?_, ?_⟩
  · rw [unifiedDiff_identity]
    rfl
  · unfold calculateDiffRatio
    rw [ratioQ_identity]
    norm_num [round2, roundHalfEven]
  · exact extractChangedSections_identity _

end SpringLift
